import Mathlib

/-!
Verification development for the algebraic analyzer and inverter of
`src/compile/algebra.rs` (symbolic algebra kernel, abstract interpreter,
inverter/calculus, and lowering back to IR).

Modelling conventions:

* `F` models an `f64` power as either a rational number or NaN.  Rational
  arithmetic is exact (no rounding, no infinities); IEEE NaN propagation and
  IEEE comparison semantics (NaN is unequal to and incomparable with
  everything, including itself) are preserved, since the control flow of the
  source depends on them.  Division by zero is modelled as NaN.
* `Cplx` models the host `Complex` type (a pair of `f64`), which lives outside
  the analyzed sources.  Its field operations are modelled from the spec
  (section 3.1) componentwise over `F`; the transcendental coefficient
  operations `sqrt`, `powf` and `log` are kept abstract as the parameter
  structure `Tran`, so every theorem below is parametric in them.  The test
  `b.abs() > 1.0` is modelled by comparing the squared magnitude with 1,
  which agrees with the source for all inputs (NaN included).
* `Expr` is the `BTreeMap<Term, Complex>` of the source, modelled as an
  association list strictly sorted by the source's `Term` ordering; map
  operations (`entry().or_default() += c`, `insert`, `remove`) are modelled
  by ordered-list insertion that preserves the original key on a hit, as
  `BTreeMap` does.
* `Node` models the host IR variants the analyzer inspects.  `Call` (which
  requires assembly lookup) is not modelled; no claim involves it.  The
  builders `Node::empty` / `from_iter` / `push` and `sig_node()` are external
  to the analyzed sources and are modelled from the spec as list sequencing
  (`Node.run`) with a 1-argument 1-output signature for the `On` wrapper.
* The sentinel span `asm.spans.len() - 1` uses unsigned subtraction in the
  source; `spanCalc` returns `none` on a zero-length span list, modelling the
  debug-build underflow panic.  Entry points therefore return `Option`, with
  `none` marking the panic.
-/

namespace Algebra

/-- An `f64` value as used for term powers: a rational or NaN. -/
inductive F where
  | num (q : ℚ)
  | nan
deriving DecidableEq

/-- Comparison of two rationals (the total order underlying `f64`
comparisons away from NaN). -/
def qcmp (a b : ℚ) : Ordering :=
  if a < b then .lt else if a = b then .eq else .gt

/-- Comparison of two naturals (`usize::cmp` on lengths). -/
def ncmp (a b : Nat) : Ordering :=
  if a < b then .lt else if a = b then .eq else .gt

/-- Comparison of two booleans (`bool::cmp`, with `false < true`). -/
def bcmp : Bool → Bool → Ordering
  | false, false => .eq
  | false, true => .lt
  | true, false => .gt
  | true, true => .eq

namespace F

/-- NaN test (`f64::is_nan`). -/
def isNan : F → Bool
  | .nan => true
  | _ => false

/-- IEEE `==`: NaN is unequal to everything, including itself. -/
def ieeeEq : F → F → Bool
  | .num a, .num b => decide (a = b)
  | _, _ => false

/-- IEEE `partial_cmp`: `none` whenever either side is NaN. -/
def pcmp : F → F → Option Ordering
  | .num a, .num b => some (qcmp a b)
  | _, _ => none

/-- Addition with NaN propagation. -/
def add : F → F → F
  | .num a, .num b => .num (a + b)
  | _, _ => .nan

/-- Subtraction with NaN propagation. -/
def sub : F → F → F
  | .num a, .num b => .num (a - b)
  | _, _ => .nan

/-- Multiplication with NaN propagation. -/
def mul : F → F → F
  | .num a, .num b => .num (a * b)
  | _, _ => .nan

/-- Division with NaN propagation; division by zero is modelled as NaN. -/
def div : F → F → F
  | .num a, .num b => if b = 0 then .nan else .num (a / b)
  | _, _ => .nan

/-- Negation with NaN propagation. -/
def neg : F → F
  | .num a => .num (-a)
  | .nan => .nan

end F

/-- The host `Complex` scalar: a pair of `f64` components. -/
structure Cplx where
  re : F
  im : F
deriving DecidableEq

namespace Cplx

def zero : Cplx := ⟨.num 0, .num 0⟩

def one : Cplx := ⟨.num 1, .num 0⟩

/-- The imaginary unit `Complex::I`. -/
def I : Cplx := ⟨.num 0, .num 1⟩

/-- Embed a rational as a real complex value. -/
def ofQ (q : ℚ) : Cplx := ⟨.num q, .num 0⟩

def add (a b : Cplx) : Cplx := ⟨a.re.add b.re, a.im.add b.im⟩

def neg (a : Cplx) : Cplx := ⟨a.re.neg, a.im.neg⟩

def mul (a b : Cplx) : Cplx :=
  ⟨(a.re.mul b.re).sub (a.im.mul b.im), (a.re.mul b.im).add (a.im.mul b.re)⟩

/-- Complex division, componentwise over `F` via the usual formula. -/
def div (a b : Cplx) : Cplx :=
  let d := (b.re.mul b.re).add (b.im.mul b.im)
  ⟨((a.re.mul b.re).add (a.im.mul b.im)).div d,
   ((a.im.mul b.re).sub (a.re.mul b.im)).div d⟩

/-- `Complex * f64`: scale both components. -/
def scale (a : Cplx) (r : F) : Cplx := ⟨a.re.mul r, a.im.mul r⟩

/-- `Complex / f64`: divide both components. -/
def divF (a : Cplx) (r : F) : Cplx := ⟨a.re.div r, a.im.div r⟩

/-- `Complex::into_real`: the real part iff the imaginary part equals zero. -/
def intoReal (a : Cplx) : Option F :=
  if a.im.ieeeEq (.num 0) then some a.re else none

/-- `Complex::is_nan`: either component is NaN. -/
def isNan (a : Cplx) : Bool := a.re.isNan || a.im.isNan

/-- The `PartialEq` of `Complex`: componentwise IEEE equality. -/
def ieeeEq (a b : Cplx) : Bool := a.re.ieeeEq b.re && a.im.ieeeEq b.im

/-- The test `b.abs() > 1.0`, modelled by comparing the squared magnitude
with 1; `sqrt` is monotone so this agrees with the source, and any NaN
component makes both tests false. -/
def absGtOne (a : Cplx) : Bool :=
  match F.pcmp ((a.re.mul a.re).add (a.im.mul a.im)) (.num 1) with
  | some .gt => true
  | _ => false

/-- `partial_cmp` on `Complex`, modelled from the spec lexicographically on
the components (used only inside the `Ord` of `Expr`). -/
def pcmp (a b : Cplx) : Option Ordering :=
  match F.pcmp a.re b.re with
  | some .eq => F.pcmp a.im b.im
  | some o => some o
  | none => none

end Cplx

/-- The abstract transcendental operations of the host `Complex` type
(`sqrt`, `powf`, `log`); they are external to the analyzed sources, so the
whole development is parametric in them. -/
structure Tran where
  csqrt : Cplx → Cplx
  cpow : Cplx → F → Cplx
  clog : Cplx → F → Cplx

/-- An arbitrary concrete instantiation of `Tran`, used only to state
concrete instances of the parametric theorems. -/
def Td : Tran := ⟨fun c => c, fun c _ => c, fun c _ => c⟩

/-- `Base`: the variable `X` or a nested sub-expression (a term map). -/
inductive Base where
  | X : Base
  | expr : List ((Base × F) × Cplx) → Base

/-- `Term`: a base together with an `f64` power. -/
abbrev Term := Base × F

/-- `Expr`: the `BTreeMap<Term, Complex>` as a key-sorted association list. -/
abbrev Expr := List (Term × Cplx)

/-- `partial_cmp` fallback of the source `Term` ordering: compare powers,
and on NaN fall back to comparing the `is_nan` flags. -/
def powCmp (p q : F) : Ordering :=
  match F.pcmp p q with
  | some o => o
  | none => bcmp p.isNan q.isNan

/-- Coefficient comparison inside the `Ord` of `Expr`: `partial_cmp` with
the `is_nan` fallback. -/
def coefCmp (c d : Cplx) : Ordering :=
  match Cplx.pcmp c d with
  | some o => o
  | none => bcmp c.isNan d.isNan

mutual

/-- The derived `Ord` of `Base`: `X` before `expr`, nested maps by the
manual `Ord` of `Expr` (length first, then entrywise). -/
def baseCmp : Base → Base → Ordering
  | .X, .X => .eq
  | .X, .expr _ => .lt
  | .expr _, .X => .gt
  | .expr a, .expr b => (ncmp a.length b.length).then (entriesCmp a b)
  termination_by structural b => b

/-- Entrywise comparison of two term maps: term order (base first, then
`powCmp`), then coefficient comparison. -/
def entriesCmp : List (Term × Cplx) → List (Term × Cplx) → Ordering
  | [], _ => .eq
  | _ :: _, [] => .eq
  | ((b1, p1), c1) :: r1, ((b2, p2), c2) :: r2 =>
    (((((baseCmp b1 b2).then (powCmp p1 p2))).then (coefCmp c1 c2)).then
      (entriesCmp r1 r2))
  termination_by structural a => a

end

/-- The manual `Ord` of `Term`: base first, then `powCmp` on the powers. -/
def termCmp : Term → Term → Ordering
  | (b1, p1), (b2, p2) => (baseCmp b1 b2).then (powCmp p1 p2)

mutual

/-- The `PartialEq` of `Base` (derived): same variant, nested maps by the
manual `PartialEq` of `Expr`. -/
def baseEqb : Base → Base → Bool
  | .X, .X => true
  | .expr a, .expr b => (a.length == b.length) && entriesEqb a b
  | _, _ => false
  termination_by structural b => b

/-- Entrywise `PartialEq` of two term maps: term equality (as written in the
source) and coefficient IEEE equality with the NaN-flag fallback. -/
def entriesEqb : List (Term × Cplx) → List (Term × Cplx) → Bool
  | [], _ => true
  | _ :: _, [] => true
  | ((b1, p1), c1) :: r1, ((b2, p2), c2) :: r2 =>
    (baseEqb b1 b2 && (p1.ieeeEq p2 || (p1.isNan == p2.isNan))) &&
      (c1.ieeeEq c2 || (c1.isNan == c2.isNan)) && entriesEqb r1 r2
  termination_by structural a => a

end

/-- The manual `PartialEq` of `Term` as written in the source: bases equal,
and powers equal or with equal `is_nan` flags. -/
def termEqb : Term → Term → Bool
  | (b1, p1), (b2, p2) =>
    baseEqb b1 b2 && (p1.ieeeEq p2 || (p1.isNan == p2.isNan))

mutual

/-- `Expr::is_complex` as written in the source:
`term.power != 0.0 || term.power != 1.0 || nested expr is complex`. -/
def Expr.is_complex : Expr → Bool
  | [] => false
  | ((b, p), _) :: rest =>
    (!(p.ieeeEq (.num 0)) || !(p.ieeeEq (.num 1)) || baseIsComplex b) ||
      Expr.is_complex rest
  termination_by structural e => e

/-- The nested-base part of the per-term test of `Expr::is_complex`. -/
def baseIsComplex : Base → Bool
  | .X => false
  | .expr e => Expr.is_complex e
  termination_by structural b => b

end

/-- The per-term test of `Expr::is_complex`. -/
def termIsComplex : Term → Bool
  | (b, p) =>
    !(p.ieeeEq (.num 0)) || !(p.ieeeEq (.num 1)) || baseIsComplex b

/-- `entry(term).or_default() += c` on the sorted term map: insert a default
zero and add, or add into the existing entry, preserving the stored key. -/
def insertAdd : Expr → Term → Cplx → Expr
  | [], t, c => [(t, Cplx.zero.add c)]
  | (t1, c1) :: rest, t, c =>
    match termCmp t t1 with
    | .lt => (t, Cplx.zero.add c) :: (t1, c1) :: rest
    | .eq => (t1, c1.add c) :: rest
    | .gt => (t1, c1) :: insertAdd rest t c

/-- `BTreeMap::insert` on the sorted term map: replace the value, preserving
the stored key. -/
def insertPut : Expr → Term → Cplx → Expr
  | [], t, c => [(t, c)]
  | (t1, c1) :: rest, t, c =>
    match termCmp t t1 with
    | .lt => (t, c) :: (t1, c1) :: rest
    | .eq => (t1, c) :: rest
    | .gt => (t1, c1) :: insertPut rest t c

/-- `BTreeMap::remove`: the removed value (if any) and the remaining map. -/
def removeKey : Expr → Term → Option Cplx × Expr
  | [], _ => (none, [])
  | (t1, c1) :: rest, t =>
    match termCmp t t1 with
    | .eq => (some c1, rest)
    | _ =>
      let r := removeKey rest t
      (r.1, (t1, c1) :: r.2)

/-- `BTreeMap::get`-style lookup by the key ordering. -/
def lookupC : Expr → Term → Option Cplx
  | [], _ => none
  | (t1, c1) :: rest, t =>
    match termCmp t t1 with
    | .eq => some c1
    | _ => lookupC rest t

/-- The coefficient of a term in a map, zero when absent. -/
def coeff (e : Expr) (t : Term) : Cplx := (lookupC e t).getD Cplx.zero

/-- `Expr::from(Complex)`: the constant map `{X^0 -> c}`. -/
def exprOfC (c : Cplx) : Expr := [((.X, F.num 0), c)]

/-- `Expr::from(Term)`: a single term with coefficient one. -/
def exprOfTerm (t : Term) : Expr := [(t, Cplx.one)]

/-- `Expr::from(Term::from(Base::X))`: the variable `{X^1 -> 1}`. -/
def exprX : Expr := exprOfTerm (.X, F.num 1)

/-- `Neg for Expr`: negate every coefficient. -/
def exprNeg (a : Expr) : Expr := a.map fun p => (p.1, p.2.neg)

/-- `Add for Expr`: fold the right-hand entries in with `+=`. -/
def exprAdd (a b : Expr) : Expr :=
  b.foldl (fun acc p => insertAdd acc p.1 p.2) a

/-- `Sub for Expr`: fold the right-hand entries in with `+= -coef`. -/
def exprSub (a b : Expr) : Expr :=
  b.foldl (fun acc p => insertAdd acc p.1 p.2.neg) a

/-- `Expr::single`: the unique entry of a one-entry map. -/
def exprSingle : Expr → Option (Term × Cplx)
  | [p] => some p
  | _ => none

/-- `Expr::as_constant`: the coefficient of a map that is exactly
`{X^0 -> c}` (power compared with IEEE equality). -/
def asConstant (e : Expr) : Option Cplx :=
  match exprSingle e with
  | some ((.X, p), c) => if p.ieeeEq (.num 0) then some c else none
  | _ => none

mutual

/-- The outer loop of `Mul for Expr` over the left entries. -/
def mulOuter : Expr → Expr → Expr → Expr
  | [], _, prod => prod
  | (ta, ca) :: rest, b, prod => mulOuter rest b (mulInner ta ca b prod)
  termination_by a b _ => sizeOf a + sizeOf b
  decreasing_by all_goals (first | (simp; omega) | simp)

/-- The inner loop of `Mul for Expr` over the right entries. -/
def mulInner (ta : Term) (ca : Cplx) : Expr → Expr → Expr
  | [], prod => prod
  | (tb, cb) :: rest, prod => mulInner ta ca rest (mulOne ta ca tb cb prod)
  termination_by b _ => sizeOf ta + sizeOf b
  decreasing_by all_goals (first | (simp; omega) | simp)

/-- One term-pair product, following the base-multiplication table.  In the
mixed cases the source shadows the outer coefficient of the `expr` side with
the inner one, so only one of the two outer coefficients enters the product;
this is reproduced faithfully.  The nested case multiplies the two nested
maps recursively (`mulOuter ea eb []` is the product of `ea` and `eb`). -/
def mulOne (ta : Term) (ca : Cplx) (tb : Term) (cb : Cplx) (prod : Expr) : Expr :=
  match ta, tb with
  | (.X, pa), (.X, pb) => insertAdd prod (.X, pa.add pb) (ca.mul cb)
  | (.X, pa), (.expr e, _) =>
    e.foldl (fun acc q => insertAdd acc (q.1.1, q.1.2.add pa) (ca.mul q.2)) prod
  | (.expr e, _), (.X, pb) =>
    e.foldl (fun acc q => insertAdd acc (q.1.1, q.1.2.add pb) (q.2.mul cb)) prod
  | (.expr ea, _), (.expr eb, _) =>
    (mulOuter ea eb []).foldl
      (fun acc q => insertAdd acc q.1 ((q.2.mul ca).mul cb)) prod
  termination_by sizeOf ta + sizeOf tb
  decreasing_by all_goals (first | (simp; omega) | simp)

end

/-- `Mul for Expr`: distribute over all term pairs, combining bases by the
source's base-multiplication table. -/
def exprMul (a b : Expr) : Expr := mulOuter a b []

mutual

/-- The outer loop of `Div for Expr` over the left entries. -/
def divOuter : Expr → Expr → Expr → Expr
  | [], _, prod => prod
  | (ta, ca) :: rest, b, prod => divOuter rest b (divInner ta ca b prod)
  termination_by a b _ => sizeOf a + sizeOf b
  decreasing_by all_goals (first | (simp; omega) | simp)

/-- The inner loop of `Div for Expr` over the right entries. -/
def divInner (ta : Term) (ca : Cplx) : Expr → Expr → Expr
  | [], prod => prod
  | (tb, cb) :: rest, prod => divInner ta ca rest (divOne ta ca tb cb prod)
  termination_by b _ => sizeOf ta + sizeOf b
  decreasing_by all_goals (first | (simp; omega) | simp)

/-- One term-pair quotient, following the source's division table (power
addition except in the `X / X` case, mirroring `Mul` otherwise; the nested
case divides the two nested maps recursively). -/
def divOne (ta : Term) (ca : Cplx) (tb : Term) (cb : Cplx) (prod : Expr) : Expr :=
  match ta, tb with
  | (.X, pa), (.X, pb) => insertAdd prod (.X, pa.sub pb) (ca.div cb)
  | (.X, pa), (.expr e, _) =>
    e.foldl (fun acc q => insertAdd acc (q.1.1, q.1.2.add pa) (ca.div q.2)) prod
  | (.expr e, _), (.X, pb) =>
    e.foldl (fun acc q => insertAdd acc (q.1.1, q.1.2.add pb) (q.2.div cb)) prod
  | (.expr ea, _), (.expr eb, _) =>
    (divOuter ea eb []).foldl
      (fun acc q => insertAdd acc q.1 ((q.2.mul ca).div cb)) prod
  termination_by sizeOf ta + sizeOf tb
  decreasing_by all_goals (first | (simp; omega) | simp)

end

/-- `Div for Expr`: same shape as `Mul`, dividing coefficients; powers are
subtracted only in the `X / X` case. -/
def exprDiv (a b : Expr) : Expr := divOuter a b []

/-- `Expr::pow`: defined only when the exponent is a real constant; multiply
every power and raise every coefficient by it, re-collecting the map. -/
def exprPow (T : Tran) (a power : Expr) : Option Expr :=
  match (asConstant power).bind Cplx.intoReal with
  | none => none
  | some p =>
    some (a.foldl (fun acc q => insertPut acc (q.1.1, q.1.2.mul p) (T.cpow q.2 p)) [])

/-- `Expr::log`: defined only when the base is a real constant; divide every
power and take every coefficient's log, re-collecting the map. -/
def exprLog (T : Tran) (a base : Expr) : Option Expr :=
  match (asConstant base).bind Cplx.intoReal with
  | none => none
  | some bv =>
    some (a.foldl (fun acc q => insertPut acc (q.1.1, q.1.2.div bv) (T.clog q.2 bv)) [])

/-- The `Sqrt` action on an expression: with at most one term, halve the
power and take the coefficient's complex square root; otherwise wrap the
whole map as a nested base raised to `0.5`. -/
def sqrtE (T : Tran) (a : Expr) : Expr :=
  if a.length ≤ 1 then
    a.map fun q => ((q.1.1, q.1.2.mul (F.num (1/2))), T.csqrt q.2)
  else
    exprOfTerm (.expr a, F.num (1/2))

/-- The scalar primitives understood (or explicitly rejected) by the
abstract interpreter. -/
inductive Prim where
  | identity | pop | dup | flip | over
  | neg | not | sqrt | add | sub | mul | div | pow | log | complex
  | max
  | other (name : String)
deriving DecidableEq

/-- The stack combinators (`Mod`) understood by the abstract interpreter. -/
inductive Modifier where
  | dip | gap | on | by_ | both | bracket | fork
  | otherMod (name : String)
deriving DecidableEq

/-- The scalar payload of a `Push` node: the value kinds the interpreter
distinguishes.  `rankPos` stands for any value of positive rank, `otherVal`
for a non-numeric scalar. -/
inductive Val where
  | num (x : F)
  | byte (b : Nat)
  | cplx (c : Cplx)
  | rankPos
  | otherVal
deriving DecidableEq

/-- The host IR nodes inspected by the analyzer.  `Call` is not modelled
(it needs assembly lookup); `other` covers the remaining variants, which
the interpreter uniformly rejects. -/
inductive Node where
  | run (ns : List Node)
  | push (v : Val)
  | prim (p : Prim) (span : Nat)
  | implPrim (name : String) (span : Nat)
  | mod (m : Modifier) (args : List (Node × Nat × Nat)) (span : Nat)
  | implMod (name : String) (span : Nat)
  | customInverse (isObverse : Bool) (normal : Option (Node × Nat × Nat)) (span : Nat)
  | copyToUnder
  | pushUnder
  | popUnder
  | other (desc : String)

/-- `SigNode`: a node with its declared signature `(args, outputs)`. -/
abbrev SigNode := Node × Nat × Nat

/-- The error taxonomy of the algebra system. -/
inductive AlgebraError where
  | TooManyVariables
  | NotSupported (desc : String)
  | NoOutput
  | TooManyOutputs
  | NonScalar
  | NonReal
  | TooComplex
  | InterpreterBug
  | NoInverse
deriving DecidableEq

/-- The state of the abstract interpreter (`AlgebraEnv`). -/
structure Env where
  stack : List Expr
  handled : Nat
  anyComplex : Bool
  callStack : List Nat

/-- `Node::span()`, modelled for the variants carrying a span (it only feeds
the diagnostic call stack). -/
def spanOf : Node → Option Nat
  | .prim _ s => some s
  | .implPrim _ s => some s
  | .mod _ _ s => some s
  | .implMod _ s => some s
  | .customInverse _ _ s => some s
  | _ => none

/-- The epilogue of `AlgebraEnv::node`: pop the pushed span again, but only
when the body succeeded (the `?` operator skips the pop on error). -/
def wrapSpan (r : Env × Option AlgebraError) : Env × Option AlgebraError :=
  match r with
  | (env1, none) => ({ env1 with callStack := env1.callStack.tail }, none)
  | r => r

/-- `AlgebraEnv::pop`: the top expression, or `TooManyVariables`. -/
def popE (env : Env) : Except AlgebraError (Expr × Env) :=
  match env.stack with
  | [] => .error .TooManyVariables
  | a :: rest => .ok (a, { env with stack := rest })

/-- Pop `n` values one at a time (in pop order); `none` when the stack runs
dry, in which case the whole stack has been consumed. -/
def popN : Nat → List Expr → Option (List Expr × List Expr)
  | 0, st => some ([], st)
  | _ + 1, [] => none
  | k + 1, x :: st => (popN k st).map fun r => (x :: r.1, r.2)

/-- The display name of the one unsupported primitive we carry explicitly. -/
def maxName : String := "max"

/-- The description used when rejecting obverse custom inverses. -/
def customInvDesc : String := "custom inverses"

/-- Push an expression onto the interpreter stack. -/
def pushV (env : Env) (e : Expr) : Env := { env with stack := e :: env.stack }

/-- One `Prim` step of `AlgebraEnv::node_impl` (everything except the stack
combinators, which need recursion). -/
def primStep (T : Tran) (p : Prim) (env : Env) : Env × Option AlgebraError :=
  match p with
  | .identity =>
    match popE env with
    | .error e => (env, some e)
    | .ok (a, env1) => (pushV env1 a, none)
  | .pop =>
    match popE env with
    | .error e => (env, some e)
    | .ok (_, env1) => (env1, none)
  | .dup =>
    match popE env with
    | .error e => (env, some e)
    | .ok (a, env1) => (pushV (pushV env1 a) a, none)
  | .flip =>
    match popE env with
    | .error e => (env, some e)
    | .ok (a, env1) =>
      match popE env1 with
      | .error e => (env1, some e)
      | .ok (b, env2) => (pushV (pushV env2 a) b, none)
  | .over =>
    match popE env with
    | .error e => (env, some e)
    | .ok (a, env1) =>
      match popE env1 with
      | .error e => (env1, some e)
      | .ok (b, env2) => (pushV (pushV (pushV env2 b) a) b, none)
  | .neg =>
    match popE env with
    | .error e => (env, some e)
    | .ok (a, env1) =>
      ({ pushV env1 (exprNeg a) with handled := env1.handled + 1 }, none)
  | .not =>
    match popE env with
    | .error e => (env, some e)
    | .ok (a, env1) =>
      ({ pushV env1 (exprSub (exprOfC Cplx.one) a) with handled := env1.handled + 1 }, none)
  | .sqrt =>
    match popE env with
    | .error e => (env, some e)
    | .ok (a, env1) =>
      ({ pushV env1 (sqrtE T a) with handled := env1.handled + 1 }, none)
  | .add =>
    match popE env with
    | .error e => (env, some e)
    | .ok (a, env1) =>
      match popE env1 with
      | .error e => (env1, some e)
      | .ok (b, env2) =>
        ({ pushV env2 (exprAdd b a) with handled := env2.handled + 1 }, none)
  | .sub =>
    match popE env with
    | .error e => (env, some e)
    | .ok (a, env1) =>
      match popE env1 with
      | .error e => (env1, some e)
      | .ok (b, env2) =>
        ({ pushV env2 (exprSub b a) with handled := env2.handled + 1 }, none)
  | .mul =>
    match popE env with
    | .error e => (env, some e)
    | .ok (a, env1) =>
      match popE env1 with
      | .error e => (env1, some e)
      | .ok (b, env2) =>
        ({ pushV env2 (exprMul b a) with handled := env2.handled + 1 }, none)
  | .div =>
    match popE env with
    | .error e => (env, some e)
    | .ok (a, env1) =>
      match popE env1 with
      | .error e => (env1, some e)
      | .ok (b, env2) =>
        ({ pushV env2 (exprDiv b a) with handled := env2.handled + 1 }, none)
  | .pow =>
    match popE env with
    | .error e => (env, some e)
    | .ok (a, env1) =>
      match popE env1 with
      | .error e => (env1, some e)
      | .ok (b, env2) =>
        match exprPow T b a with
        | none => (env2, some .NonScalar)
        | some r => ({ pushV env2 r with handled := env2.handled + 1 }, none)
  | .log =>
    match popE env with
    | .error e => (env, some e)
    | .ok (a, env1) =>
      match popE env1 with
      | .error e => (env1, some e)
      | .ok (b, env2) =>
        match exprLog T b a with
        | none => (env2, some .NonScalar)
        | some r => ({ pushV env2 r with handled := env2.handled + 1 }, none)
  | .complex =>
    match popE env with
    | .error e => (env, some e)
    | .ok (a, env1) =>
      match popE env1 with
      | .error e => (env1, some e)
      | .ok (b, env2) =>
        match asConstant a, asConstant b with
        | some ca, some cb =>
          ({ pushV env2 (exprOfC ((ca.mul Cplx.I).add cb)) with anyComplex := true }, none)
        | _, _ =>
          ({ pushV env2 (exprAdd b (exprMul a (exprOfC Cplx.I))) with anyComplex := true }, none)
  | .max => (env, some (.NotSupported maxName))
  | .other nm => (env, some (.NotSupported nm))

mutual

/-- `AlgebraEnv::node` / `node_impl`: execute one node against the symbolic
stack (with the diagnostic span push around spanned nodes). -/
def runNode (T : Tran) (n : Node) (env : Env) : Env × Option AlgebraError :=
  match n with
  | .run ns => runSeq T ns env
  | .push v =>
    match v with
    | .rankPos => (env, some .NonScalar)
    | .num x => (pushV env (exprOfC ⟨x, .num 0⟩), none)
    | .byte b => (pushV env (exprOfC ⟨.num b, .num 0⟩), none)
    | .cplx c => ({ pushV env (exprOfC c) with anyComplex := true }, none)
    | .otherVal => (env, some .NonReal)
  | .prim p s =>
    wrapSpan (primStep T p { env with callStack := s :: env.callStack })
  | .implPrim nm s =>
    wrapSpan ({ env with callStack := s :: env.callStack }, some (.NotSupported nm))
  | .implMod nm s =>
    wrapSpan ({ env with callStack := s :: env.callStack }, some (.NotSupported nm))
  | .mod m args s =>
    let env0 := { env with callStack := s :: env.callStack }
    wrapSpan
      (match m, args with
       | .dip, [(fn, _, _)] =>
         (match popE env0 with
          | .error e => (env0, some e)
          | .ok (a, env1) =>
            match runNode T fn env1 with
            | (env2, some e) => (env2, some e)
            | (env2, none) => (pushV env2 a, none))
       | .gap, [(fn, _, _)] =>
         (match popE env0 with
          | .error e => (env0, some e)
          | .ok (_, env1) => runNode T fn env1)
       | .on, [(fn, _, _)] =>
         (match popE env0 with
          | .error e => (env0, some e)
          | .ok (a, env1) =>
            match runNode T fn (pushV env1 a) with
            | (env2, some e) => (env2, some e)
            | (env2, none) => (pushV env2 a, none))
       | .by_, [(fn, fa, _)] =>
         (match popN fa env0.stack with
          | none => ({ env0 with stack := [] }, some .TooManyVariables)
          | some (xs, rest) =>
            let st1 := match xs.getLast? with
              | some l => l :: rest
              | none => rest
            runNode T fn { env0 with stack := xs ++ st1 })
       | .both, [(fn, fa, _)] =>
         (match popN fa env0.stack with
          | none => ({ env0 with stack := [] }, some .TooManyVariables)
          | some (xs, rest) =>
            match runNode T fn { env0 with stack := rest } with
            | (env1, some e) => (env1, some e)
            | (env1, none) => runNode T fn { env1 with stack := xs ++ env1.stack })
       | .bracket, [(fn, fa, _), (gn, _, _)] =>
         (match popN fa env0.stack with
          | none => ({ env0 with stack := [] }, some .TooManyVariables)
          | some (xs, rest) =>
            match runNode T gn { env0 with stack := rest } with
            | (env1, some e) => (env1, some e)
            | (env1, none) => runNode T fn { env1 with stack := xs ++ env1.stack })
       | .fork, [(fn, fa, _), (gn, ga, _)] =>
         (if ga < fa then
            match popN fa env0.stack with
            | none => ({ env0 with stack := [] }, some .TooManyVariables)
            | some (xs, rest) =>
              match runNode T gn { env0 with stack := xs.drop (fa - ga) ++ rest } with
              | (env1, some e) => (env1, some e)
              | (env1, none) => runNode T fn { env1 with stack := xs.reverse ++ env1.stack }
          else
            match popN fa env0.stack with
            | none => ({ env0 with stack := [] }, some .TooManyVariables)
            | some (xs, rest) =>
              match runNode T gn { env0 with stack := xs ++ rest } with
              | (env1, some e) => (env1, some e)
              | (env1, none) => runNode T fn { env1 with stack := xs.reverse ++ env1.stack })
       | .dip, _ => (env0, some .InterpreterBug)
       | .gap, _ => (env0, some .InterpreterBug)
       | .on, _ => (env0, some .InterpreterBug)
       | .by_, _ => (env0, some .InterpreterBug)
       | .both, _ => (env0, some .InterpreterBug)
       | .bracket, _ => (env0, some .InterpreterBug)
       | .fork, _ => (env0, some .InterpreterBug)
       | .otherMod nm, _ => (env0, some (.NotSupported nm)))
  | .customInverse isObv normal s =>
    let env0 := { env with callStack := s :: env.callStack }
    wrapSpan
      (if isObv then (env0, some (.NotSupported customInvDesc))
       else
         match normal with
         | some (fn, _, _) => runNode T fn env0
         | none => (env0, some .NoInverse))
  | .copyToUnder => (env, none)
  | .pushUnder => (env, none)
  | .popUnder => (env, none)
  | .other desc => (env, some (.NotSupported desc))
  termination_by structural n

/-- Execute a node list in order, stopping at the first error. -/
def runSeq (T : Tran) (ns : List Node) (env : Env) : Env × Option AlgebraError :=
  match ns with
  | [] => (env, none)
  | n :: rest =>
    match runNode T n env with
    | (env1, none) => runSeq T rest env1
    | r => r
  termination_by structural ns

end

/-- `AlgebraEnv::new`: the stack holds the single variable `{X^1 -> 1}`. -/
def initEnv : Env := ⟨[exprX], 0, false, []⟩

/-- The handled heuristic: `handled >= 2` or any residual stack entry is
complex-shape. -/
def handledOf (env : Env) : Bool :=
  decide (2 ≤ env.handled) || env.stack.any Expr.is_complex

/-- `AlgebraEnv::result`: exactly one residual expression. -/
def resultOf (env : Env) : Except AlgebraError Expr :=
  match env.stack with
  | [] => .error .NoOutput
  | [e] => .ok e
  | _ => .error .TooManyOutputs

/-- The result record of `nodes_expr`. -/
structure AlgebraData where
  expr : Except AlgebraError Expr
  handled : Bool
  anyComplex : Bool

/-- The interpreter state at the point where `nodes_expr` stops (the final
state on success, the state at the failing step on error). -/
def stopEnv (T : Tran) (ns : List Node) : Env := (runSeq T ns initEnv).1

/-- `nodes_expr`: run the nodes from the initial state; on error report it
with the handled flag of the stopping state, otherwise extract the single
result with the handled flag of the final state. -/
def nodes_expr (T : Tran) (ns : List Node) : AlgebraData :=
  match runSeq T ns initEnv with
  | (env, some e) => ⟨.error e, handledOf env, env.anyComplex⟩
  | (env, none) => ⟨resultOf env, handledOf env, env.anyComplex⟩

/-- The sentinel span `spans.len() - 1`: `none` models the unsigned-underflow
panic on an empty span sequence. -/
def spanCalc (nspans : Nat) : Option Nat :=
  if nspans = 0 then none else some (nspans - 1)

/-- The `push` closure of `algebraic_inverse` (also the coefficient lowering
of `expr_to_node`): a complex push when `any_complex`, else a real push of
the real part (NaN when the projection fails). -/
def pushRule (anyComplex : Bool) (x : Cplx) : Node :=
  if anyComplex then .push (.cplx x)
  else .push (.num (x.intoReal.getD F.nan))

/-- `algebraic_inverse`: analyze the nodes, extract the quadratic
coefficients, and emit the inverse IR; `none` models the span-sentinel panic
on an empty span sequence. -/
def algebraic_inverse (T : Tran) (nspans : Nat) (ns : List Node) :
    Option (Except (Option AlgebraError) Node) :=
  let data := nodes_expr T ns
  if data.handled = false then some (.error none)
  else
    match data.expr with
    | .error e => some (.error (some e))
    | .ok expr0 =>
      let rc := removeKey expr0 (.X, F.num 0)
      let c := rc.1.getD Cplx.zero
      let rb := removeKey rc.2 (.X, F.num 1)
      let b := rb.1.getD Cplx.zero
      let ra := removeKey rb.2 (.X, F.num 2)
      let a : Option Cplx :=
        match ra.1 with
        | some v => if v.ieeeEq Cplx.zero then none else some v
        | none => none
      if ra.2.isEmpty = false then some (.error (some .TooComplex))
      else
        (spanCalc nspans).map fun span =>
          .ok
            (match a with
             | some a0 =>
               if b.ieeeEq Cplx.zero then
                 .run [pushRule data.anyComplex c, .prim .sub span,
                       pushRule data.anyComplex a0, .prim .div span, .prim .sqrt span]
               else
                 .run [pushRule data.anyComplex c, .prim .flip span, .prim .sub span,
                       pushRule data.anyComplex (a0.scale (F.num (-4))), .prim .mul span,
                       pushRule data.anyComplex (b.mul b), .prim .add span,
                       .prim .sqrt span, .prim .dup span,
                       pushRule data.anyComplex b, .prim .sub span,
                       .prim .flip span, .prim .neg span,
                       pushRule data.anyComplex b, .prim .sub span, .prim .max span,
                       pushRule data.anyComplex (a0.scale (F.num 2)), .prim .div span]
             | none =>
               if b.ieeeEq Cplx.zero then
                 .run [.prim .pop span, .push (.cplx c)]
               else if c.ieeeEq Cplx.zero then
                 (if b.ieeeEq Cplx.one then .prim .identity span
                  else if b.absGtOne then
                    .run [pushRule data.anyComplex b, .prim .div span]
                  else
                    .run [pushRule data.anyComplex (Cplx.one.div b), .prim .mul span])
               else
                 .run [pushRule data.anyComplex c, .prim .sub span,
                       pushRule data.anyComplex b, .prim .div span])

/-- The per-term loop of `derivative`: every base must be `X`; multiply the
coefficient by the power, skip it when the product is zero, decrement the
power and insert. -/
def derivLoop : List (Term × Cplx) → Expr → Except AlgebraError Expr
  | [], acc => .ok acc
  | (t, c) :: rest, acc =>
    match t.1 with
    | .expr _ => .error .TooComplex
    | .X =>
      let c1 := c.scale t.2
      if c1.ieeeEq Cplx.zero then derivLoop rest acc
      else derivLoop rest (insertPut acc (.X, t.2.sub (F.num 1)) c1)

/-- The expression-level derivative transform, including the final
empty-map-to-constant-zero step. -/
def derivTransform (e : Expr) : Except AlgebraError Expr :=
  match derivLoop e [] with
  | .error err => .error err
  | .ok d => .ok (if d.isEmpty then exprOfC (Cplx.ofQ 0) else d)

/-- The per-term loop of `integral`: every base must be `X`; increment the
power, divide the coefficient by the new power and insert. -/
def integLoop : List (Term × Cplx) → Expr → Except AlgebraError Expr
  | [], acc => .ok acc
  | (t, c) :: rest, acc =>
    match t.1 with
    | .expr _ => .error .TooComplex
    | .X =>
      let p1 := t.2.add (F.num 1)
      integLoop rest (insertPut acc (.X, p1) (c.divF p1))

/-- The expression-level integral transform. -/
def integTransform (e : Expr) : Except AlgebraError Expr := integLoop e []

mutual

/-- The `recur` loop of `expr_to_node`, accumulating the emitted node list. -/
def etnLoop (ac : Bool) (span : Nat) : List (Term × Cplx) → Nat → List Node → List Node
  | [], _, node => node
  | ((b, p), c) :: rest, i, node =>
    let node1 :=
      if c.ieeeEq Cplx.zero then node ++ [.push (.num (F.num 0)), .prim .mul span]
      else if p.ieeeEq (F.num 0) then node ++ [.prim .pop span, .push (.num (F.num 1))]
      else
        let node2 := etnBase ac span b i node
        if (p.ieeeEq (F.num 1)) = false then
          node2 ++ [.push (.num p), .prim .pow span]
        else node2
    let node3 :=
      if (c.ieeeEq Cplx.zero) = false && (c.ieeeEq Cplx.one) = false then
        node1 ++ [pushRule ac c, .prim .mul span]
      else node1
    let node4 := if 0 < i then node3 ++ [.prim .add span] else node3
    etnLoop ac span rest (i + 1) node4
  termination_by structural e => e

/-- The base step of the `recur` loop: for `X`, the second and later terms
wrap the accumulator with `On` (with the modelled 1-argument 1-output
signature); a nested base is lowered recursively into the accumulator. -/
def etnBase (ac : Bool) (span : Nat) : Base → Nat → List Node → List Node
  | .X, i, node => if 0 < i then [.mod .on [(.run node, 1, 1)] span] else node
  | .expr sub, _, node => etnLoop ac span sub 0 node
  termination_by structural b => b

end

/-- `expr_to_node`: the sentinel span is computed first (`none` models the
panic on an empty span sequence), then the term loop runs on an empty
accumulator. -/
def expr_to_node (nspans : Nat) (ac : Bool) (e : Expr) : Option Node :=
  (spanCalc nspans).map fun span => .run (etnLoop ac span e 0 [])

/-- `derivative`: analyze, transform, lower. -/
def derivative (T : Tran) (nspans : Nat) (ns : List Node) :
    Option (Except AlgebraError Node) :=
  let data := nodes_expr T ns
  match data.expr with
  | .error e => some (.error e)
  | .ok e =>
    match derivTransform e with
    | .error e2 => some (.error e2)
    | .ok d => (expr_to_node nspans data.anyComplex d).map .ok

/-- `integral`: analyze, transform, lower. -/
def integral (T : Tran) (nspans : Nat) (ns : List Node) :
    Option (Except AlgebraError Node) :=
  let data := nodes_expr T ns
  match data.expr with
  | .error e => some (.error e)
  | .ok e =>
    match integTransform e with
    | .error e2 => some (.error e2)
    | .ok d => (expr_to_node nspans data.anyComplex d).map .ok

/-! ### Statement helpers (definitions used by the theorems below) -/

/-- A node that is one of the five stack-shuffle primitives. -/
def isShuffle : Node → Bool
  | .prim p _ =>
    match p with
    | .identity => true
    | .pop => true
    | .dup => true
    | .flip => true
    | .over => true
    | _ => false
  | _ => false

/-- A node sequence consisting solely of stack-shuffle primitives. -/
def shuffleOnly (ns : List Node) : Bool := ns.all isShuffle

/-- The values pushed at the top level of an emitted node sequence. -/
def pushVals (l : List Node) : List Val :=
  l.filterMap fun n =>
    match n with
    | .push v => some v
    | _ => none

/-- The residue of an analyzed map after the inverter removes the `X^0`,
`X^1` and `X^2` entries. -/
def remainder3 (e : Expr) : Expr :=
  (removeKey (removeKey (removeKey e (.X, F.num 0)).2 (.X, F.num 1)).2 (.X, F.num 2)).2

/-- A term whose key matches `X^0`, `X^1` or `X^2` under the map ordering. -/
def inTri (t : Term) : Bool :=
  decide (termCmp t (.X, F.num 0) = .eq) ||
    decide (termCmp t (.X, F.num 1) = .eq) ||
      decide (termCmp t (.X, F.num 2) = .eq)

/-- The per-term derivative map of the claim: `(X^p -> c)` becomes
`(X^(p-1) -> c*p)`, dropped when the new coefficient is zero. -/
def dstep (p : Term × Cplx) : Option (Term × Cplx) :=
  let c1 := p.2.scale p.1.2
  if c1.ieeeEq Cplx.zero then none else some ((.X, p.1.2.sub (F.num 1)), c1)

/-- The per-term integral map of the claim: `(X^p -> c)` becomes
`(X^(p+1) -> c/(p+1))`. -/
def istep (p : Term × Cplx) : Term × Cplx :=
  ((.X, p.1.2.add (F.num 1)), p.2.divF (p.1.2.add (F.num 1)))

/-- Keep exactly the entries with a nonzero coefficient. -/
def keepNz (p : Term × Cplx) : Option (Term × Cplx) :=
  if p.2.ieeeEq Cplx.zero then none else some p

/-- Whether an entry-point result is a successfully emitted node (as opposed
to an error or the modelled panic). -/
def isOkR {α β : Type} : Option (Except α β) → Bool
  | some (.ok _) => true
  | _ => false

/-! ### Shared helper lemmas -/

/-- The per-term test inside `Expr::is_complex` is a tautology: for any
power, `power != 0.0 || power != 1.0` already holds. -/
theorem termTest_true (b : Base) (p : F) :
    (!(p.ieeeEq (.num 0)) || !(p.ieeeEq (.num 1)) || baseIsComplex b) = true := by
  cases p with
  | nan => simp [F.ieeeEq]
  | num q =>
    by_cases h : q = 0
    · subst h
      simp [F.ieeeEq]
    · simp [F.ieeeEq, h]

/-- `Expr::is_complex` holds exactly of the nonempty maps. -/
theorem isComplex_eq_not_isEmpty (e : Expr) : Expr.is_complex e = !e.isEmpty := by
  induction e with
  | nil => rfl
  | cons p rest _ =>
    obtain ⟨⟨b, pw⟩, c⟩ := p
    rw [Expr.is_complex, termTest_true]
    simp

/-- On the interpreter stack, the complex-shape test agrees with plain
nonemptiness entrywise. -/
theorem any_isComplex (st : List Expr) :
    st.any Expr.is_complex = st.any fun e => !e.isEmpty := by
  induction st with
  | nil => rfl
  | cons e rest ih => simp [List.any_cons, isComplex_eq_not_isEmpty, ih]

/-! ### C1 -/

/-- C1 counterexample: the claim asserts `is_complex({X^1 -> 1}) = false` and
`is_complex({X^0 -> k}) = false`, but the source's tautological disjunction
makes both true. -/
theorem c1_counterexample :
    Expr.is_complex [((.X, F.num 1), Cplx.one)] = true ∧
      Expr.is_complex [((.X, F.num 0), Cplx.ofQ 5)] = true := by
  constructor <;> · rw [isComplex_eq_not_isEmpty]; rfl

/-- C1 (amended): `is_complex(e)` is true iff `e` has at least one term; the
source's test `power != 0.0 || power != 1.0` holds for every term, so the
per-term condition of the claim collapses to mere presence of a term. -/
theorem c1_is_complex (e : Expr) : Expr.is_complex e = !e.isEmpty :=
  isComplex_eq_not_isEmpty e

/-! ### C3 -/

/-- C3: the claim states `Term` equality holds iff the bases are equal and
the powers are equal (NaN treated as equal to NaN), so `(X, 1.0)` and
`(X, 2.0)` should be unequal.  The source's `PartialEq` reads
`power == other.power || power.is_nan() == other.power.is_nan()`, whose
second disjunct is true for any two non-NaN powers, so the two terms compare
equal — while the `Ord` impl of the very same type orders them strictly.
This evaluates the code at the failing input. -/
theorem c3_term_eq_bug :
    termEqb (.X, F.num 1) (.X, F.num 2) = true ∧
      termCmp (.X, F.num 1) (.X, F.num 2) = .lt := by
  constructor
  · norm_num [termEqb, baseEqb, F.ieeeEq, F.isNan]
  · norm_num [termCmp, baseCmp, powCmp, F.pcmp, qcmp, Ordering.then]

/-! ### C2 -/

/-- A stack-shuffle step never touches the handled counter and only
rearranges or duplicates existing stack entries, so entry nonemptiness is
preserved (also at a failing step). -/
theorem shuffle_step (T : Tran) (n : Node) (env : Env) (hn : isShuffle n = true)
    (h0 : env.handled = 0) (hne : ∀ e ∈ env.stack, e ≠ []) :
    (runNode T n env).1.handled = 0 ∧ ∀ e ∈ (runNode T n env).1.stack, e ≠ [] := by
  cases n with
  | prim p sp =>
    cases p with
    | identity =>
      cases hst : env.stack with
      | nil => simp [runNode, primStep, popE, hst, wrapSpan, h0]
      | cons a rest =>
        simp only [runNode, primStep, popE, hst, pushV, wrapSpan]
        exact ⟨h0, fun e he => hne e (by rw [hst]; exact he)⟩
    | pop =>
      cases hst : env.stack with
      | nil => simp [runNode, primStep, popE, hst, wrapSpan, h0]
      | cons a rest =>
        simp only [runNode, primStep, popE, hst, pushV, wrapSpan]
        exact ⟨h0, fun e he => hne e (by rw [hst]; exact List.mem_cons_of_mem a he)⟩
    | dup =>
      cases hst : env.stack with
      | nil => simp [runNode, primStep, popE, hst, wrapSpan, h0]
      | cons a rest =>
        simp only [runNode, primStep, popE, hst, pushV, wrapSpan]
        refine ⟨h0, fun e he => ?_⟩
        rw [List.mem_cons, List.mem_cons] at he
        have ha : a ∈ env.stack := by rw [hst]; exact List.mem_cons_self a rest
        rcases he with rfl | rfl | he
        · exact hne e ha
        · exact hne e ha
        · exact hne e (by rw [hst]; exact List.mem_cons_of_mem a he)
    | flip =>
      cases hst : env.stack with
      | nil => simp [runNode, primStep, popE, hst, wrapSpan, h0]
      | cons a rest =>
        cases hr : rest with
        | nil => simp [runNode, primStep, popE, hst, hr, wrapSpan, h0]
        | cons b rest2 =>
          simp only [runNode, primStep, popE, hst, hr, pushV, wrapSpan]
          refine ⟨h0, fun e he => ?_⟩
          rw [List.mem_cons, List.mem_cons] at he
          have ha : a ∈ env.stack := by rw [hst]; exact List.mem_cons_self a rest
          have hb : b ∈ env.stack := by
            rw [hst, hr]; exact List.mem_cons_of_mem a (List.mem_cons_self b rest2)
          rcases he with rfl | rfl | he
          · exact hne e hb
          · exact hne e ha
          · refine hne e ?_
            rw [hst, hr]
            exact List.mem_cons_of_mem a (List.mem_cons_of_mem b he)
    | over =>
      cases hst : env.stack with
      | nil => simp [runNode, primStep, popE, hst, wrapSpan, h0]
      | cons a rest =>
        cases hr : rest with
        | nil => simp [runNode, primStep, popE, hst, hr, wrapSpan, h0]
        | cons b rest2 =>
          simp only [runNode, primStep, popE, hst, hr, pushV, wrapSpan]
          refine ⟨h0, fun e he => ?_⟩
          rw [List.mem_cons, List.mem_cons, List.mem_cons] at he
          have ha : a ∈ env.stack := by rw [hst]; exact List.mem_cons_self a rest
          have hb : b ∈ env.stack := by
            rw [hst, hr]; exact List.mem_cons_of_mem a (List.mem_cons_self b rest2)
          rcases he with rfl | rfl | rfl | he
          · exact hne e hb
          · exact hne e ha
          · exact hne e hb
          · refine hne e ?_
            rw [hst, hr]
            exact List.mem_cons_of_mem a (List.mem_cons_of_mem b he)
    | neg => simp [isShuffle] at hn
    | not => simp [isShuffle] at hn
    | sqrt => simp [isShuffle] at hn
    | add => simp [isShuffle] at hn
    | sub => simp [isShuffle] at hn
    | mul => simp [isShuffle] at hn
    | div => simp [isShuffle] at hn
    | pow => simp [isShuffle] at hn
    | log => simp [isShuffle] at hn
    | complex => simp [isShuffle] at hn
    | max => simp [isShuffle] at hn
    | other nm => simp [isShuffle] at hn
  | run ns => simp [isShuffle] at hn
  | push v => simp [isShuffle] at hn
  | implPrim nm sp => simp [isShuffle] at hn
  | implMod nm sp => simp [isShuffle] at hn
  | mod m args sp => simp [isShuffle] at hn
  | customInverse o nrm sp => simp [isShuffle] at hn
  | copyToUnder => simp [isShuffle] at hn
  | pushUnder => simp [isShuffle] at hn
  | popUnder => simp [isShuffle] at hn
  | other d => simp [isShuffle] at hn

/-- Running a shuffle-only sequence preserves the zero counter and entry
nonemptiness, whether or not it errors. -/
theorem shuffle_seq (T : Tran) (ns : List Node) (env : Env)
    (hs : shuffleOnly ns = true)
    (h0 : env.handled = 0) (hne : ∀ e ∈ env.stack, e ≠ []) :
    (runSeq T ns env).1.handled = 0 ∧ ∀ e ∈ (runSeq T ns env).1.stack, e ≠ [] := by
  induction ns generalizing env with
  | nil => exact ⟨h0, hne⟩
  | cons n rest ih =>
    rw [shuffleOnly, List.all_cons, Bool.and_eq_true] at hs
    have hstep := shuffle_step T n env hs.1 h0 hne
    rw [runSeq]
    cases hr : runNode T n env with
    | mk env1 err =>
      cases err with
      | none =>
        have h1 := hstep
        rw [hr] at h1
        exact ih env1 hs.2 h1.1 h1.2
      | some e =>
        have h1 := hstep
        rw [hr] at h1
        exact h1

/-- With every stack entry nonempty, `any nonempty` is plain nonemptiness of
the stack. -/
theorem any_ne_of_all_ne (st : List Expr) (h : ∀ e ∈ st, e ≠ []) :
    (st.any fun e => !e.isEmpty) = !st.isEmpty := by
  cases st with
  | nil => rfl
  | cons a rest =>
    have ha := h a (List.mem_cons_self a rest)
    simp [List.any_cons, List.isEmpty_eq_true, ha]

/-- C2 counterexample: the claim asserts that shuffle-only sequences report
`handled = false` and that sequences containing an arithmetic primitive
report `handled = true`; the single shuffle `Identity` reports true (its
residual `X` is nonempty, hence complex-shape under the tautological test),
and the single arithmetic `Add` reports false (it fails with an empty stack
and a counter of one). -/
theorem c2_counterexample :
    (nodes_expr Td [.prim .identity 0]).handled = true ∧
      (nodes_expr Td [.prim .add 0]).handled = false := by
  constructor <;> rfl

/-- C2 (amended): the handled flag equals `counter >= 2 or some residual
stack entry is nonempty` (complex-shape being tautologically true of
nonempty maps); on a shuffle-only sequence the counter stays zero and every
residual entry is nonempty, so the flag degenerates to nonemptiness of the
residual stack — true for `[Identity]`, false only when the shuffles emptied
the stack. -/
theorem c2_handled (T : Tran) (ns : List Node) :
    (nodes_expr T ns).handled
        = (decide (2 ≤ (stopEnv T ns).handled) ||
            (stopEnv T ns).stack.any fun e => !e.isEmpty)
      ∧ (shuffleOnly ns = true →
          (stopEnv T ns).handled = 0 ∧
            (nodes_expr T ns).handled = !(stopEnv T ns).stack.isEmpty) := by
  have hmain :
      (nodes_expr T ns).handled
        = (decide (2 ≤ (stopEnv T ns).handled) ||
            (stopEnv T ns).stack.any fun e => !e.isEmpty) := by
    rw [nodes_expr, stopEnv]
    cases hr : runSeq T ns initEnv with
    | mk env err =>
      cases err with
      | none => simp [handledOf, any_isComplex]
      | some e => simp [handledOf, any_isComplex]
  refine ⟨hmain, fun hs => ?_⟩
  have hinv := shuffle_seq T ns initEnv hs rfl
    (by intro e he; simp [initEnv] at he; subst he; simp [exprX, exprOfTerm])
  have h0 : (stopEnv T ns).handled = 0 := hinv.1
  refine ⟨h0, ?_⟩
  have hall : ∀ e ∈ (stopEnv T ns).stack, e ≠ [] := hinv.2
  rw [hmain, h0, any_ne_of_all_ne _ hall]
  simp

/-- C2 witness: the amended theorem applied to the concrete shuffle-only
sequence `[Pop]`, whose residual stack is empty, so handled is false. -/
theorem c2_witness :
    shuffleOnly [Node.prim .pop 0] = true ∧
      (nodes_expr Td [.prim .pop 0]).handled = false := by
  have h := (c2_handled Td [.prim .pop 0]).2 (by rfl)
  refine ⟨by rfl, ?_⟩
  rw [h.2]
  rfl

/-! ### C6 -/

/-- Unfolding lemma for the inverter residue. -/
theorem remainder3_def (e : Expr) :
    (removeKey (removeKey (removeKey e (.X, F.num 0)).2 (.X, F.num 1)).2
        (.X, F.num 2)).2 = remainder3 e := rfl

/-- C6 counterexample: the sequence computes `x^3 - x^3 + x`, whose analyzed
map carries the residual zero-coefficient term `X^3 -> 0`; every term other
than `X^0`, `X^1`, `X^2` has coefficient zero, yet the inverter returns
`TooComplex` because it tests map emptiness, not coefficients. -/
theorem c6_counterexample :
    algebraic_inverse Td 1
        [.prim .dup 0, .push (.num (F.num 3)), .prim .pow 0,
         .prim .dup 0, .prim .sub 0, .prim .add 0]
      = some (.error (some .TooComplex)) ∧
    (nodes_expr Td
        [.prim .dup 0, .push (.num (F.num 3)), .prim .pow 0,
         .prim .dup 0, .prim .sub 0, .prim .add 0]).expr
      = .ok [((.X, F.num 1), Cplx.ofQ 1), ((.X, F.num 3), Cplx.ofQ 0)] ∧
    ([((.X, F.num 1), Cplx.ofQ 1), ((.X, F.num 3), Cplx.ofQ 0)].all
        fun p => inTri p.1 || p.2.ieeeEq Cplx.zero) = true := by
  refine ⟨?_, ?_, ?_⟩
  · norm_num [algebraic_inverse, nodes_expr, runSeq, runNode, primStep, popE, pushV,
      initEnv, exprX, exprOfTerm, exprOfC, exprAdd, exprSub, exprPow, asConstant,
      exprSingle, insertAdd, insertPut, termCmp, baseCmp, powCmp,
      F.pcmp, qcmp, F.ieeeEq, F.isNan, F.add, F.sub, F.mul, F.neg, bcmp, Td,
      Cplx.add, Cplx.neg, Cplx.zero, Cplx.one, Cplx.ofQ, Cplx.ieeeEq, Cplx.scale,
      Cplx.intoReal, Expr.is_complex, baseIsComplex, handledOf, resultOf, wrapSpan,
      spanOf, removeKey, spanCalc, pushRule, Ordering.then, Option.getD]
  · norm_num [nodes_expr, runSeq, runNode, primStep, popE, pushV,
      initEnv, exprX, exprOfTerm, exprOfC, exprAdd, exprSub, exprPow, asConstant,
      exprSingle, insertAdd, insertPut, termCmp, baseCmp, powCmp,
      F.pcmp, qcmp, F.ieeeEq, F.isNan, F.add, F.sub, F.mul, F.neg, bcmp, Td,
      Cplx.add, Cplx.neg, Cplx.zero, Cplx.one, Cplx.ofQ, Cplx.ieeeEq, Cplx.scale,
      Cplx.intoReal, Expr.is_complex, baseIsComplex, handledOf, resultOf, wrapSpan,
      spanOf, Ordering.then, Option.getD]
  · norm_num [inTri, termCmp, baseCmp, powCmp, F.pcmp, qcmp, bcmp,
      Cplx.ieeeEq, Cplx.ofQ, Cplx.zero, F.ieeeEq, Ordering.then]

/-- C6 (amended): given a handled analysis with result `e`, the inverter
returns `TooComplex` exactly when the map still has any entry other than
`X^0`, `X^1`, `X^2` — regardless of its coefficient; residual entries with an
exactly-zero coefficient are not treated as absent. -/
theorem c6_zero_residue (T : Tran) (n : Nat) (ns : List Node) (e : Expr)
    (h1 : (nodes_expr T ns).handled = true)
    (h2 : (nodes_expr T ns).expr = .ok e) :
    algebraic_inverse T n ns = some (.error (some .TooComplex)) ↔
      remainder3 e ≠ [] := by
  simp only [algebraic_inverse, h1, h2]
  rw [remainder3_def]
  by_cases hE : remainder3 e = []
  · rw [hE]
    cases hsp : spanCalc n <;> simp
  · have hF : (remainder3 e).isEmpty = false := by
      simpa [List.isEmpty_iff] using hE
    simp [hF, hE]

/-- C6 witness: the amended theorem applied to the concrete run of
`x^3 - x^3 + x`, whose residue `{X^3 -> 0}` is a nonempty map. -/
theorem c6_witness :
    (nodes_expr Td
        [.prim .dup 0, .push (.num (F.num 3)), .prim .pow 0,
         .prim .dup 0, .prim .sub 0, .prim .add 0]).handled = true ∧
    (algebraic_inverse Td 1
        [.prim .dup 0, .push (.num (F.num 3)), .prim .pow 0,
         .prim .dup 0, .prim .sub 0, .prim .add 0]
      = some (.error (some .TooComplex)) ↔
      remainder3 [((.X, F.num 1), Cplx.ofQ 1), ((.X, F.num 3), Cplx.ofQ 0)] ≠ []) := by
  constructor
  · norm_num [nodes_expr, runSeq, runNode, primStep, popE, pushV,
      initEnv, exprX, exprOfTerm, exprOfC, exprAdd, exprSub, exprPow, asConstant,
      exprSingle, insertAdd, insertPut, termCmp, baseCmp, powCmp,
      F.pcmp, qcmp, F.ieeeEq, F.isNan, F.add, F.sub, F.mul, F.neg, bcmp, Td,
      Cplx.add, Cplx.neg, Cplx.zero, Cplx.one, Cplx.ofQ, Cplx.ieeeEq, Cplx.scale,
      Cplx.intoReal, Expr.is_complex, baseIsComplex, handledOf, resultOf, wrapSpan,
      spanOf, Ordering.then, Option.getD]
  · refine c6_zero_residue Td 1 _ _ ?_ ?_
    · norm_num [nodes_expr, runSeq, runNode, primStep, popE, pushV,
        initEnv, exprX, exprOfTerm, exprOfC, exprAdd, exprSub, exprPow, asConstant,
        exprSingle, insertAdd, insertPut, termCmp, baseCmp, powCmp,
        F.pcmp, qcmp, F.ieeeEq, F.isNan, F.add, F.sub, F.mul, F.neg, bcmp, Td,
        Cplx.add, Cplx.neg, Cplx.zero, Cplx.one, Cplx.ofQ, Cplx.ieeeEq, Cplx.scale,
        Cplx.intoReal, Expr.is_complex, baseIsComplex, handledOf, resultOf, wrapSpan,
        spanOf, Ordering.then, Option.getD]
    · norm_num [nodes_expr, runSeq, runNode, primStep, popE, pushV,
        initEnv, exprX, exprOfTerm, exprOfC, exprAdd, exprSub, exprPow, asConstant,
        exprSingle, insertAdd, insertPut, termCmp, baseCmp, powCmp,
        F.pcmp, qcmp, F.ieeeEq, F.isNan, F.add, F.sub, F.mul, F.neg, bcmp, Td,
        Cplx.add, Cplx.neg, Cplx.zero, Cplx.one, Cplx.ofQ, Cplx.ieeeEq, Cplx.scale,
        Cplx.intoReal, Expr.is_complex, baseIsComplex, handledOf, resultOf, wrapSpan,
        spanOf, Ordering.then, Option.getD]

/-! ### C4 -/

/-- C4 counterexample: for `y = x - x` (a constant map), the inverter takes
the constant branch and pushes `c` as a complex value even though
`any_complex` is false; the push rule would have lowered the same constant
as a real push. -/
theorem c4_counterexample :
    algebraic_inverse Td 1 [.prim .dup 0, .prim .sub 0]
        = some (.ok (.run [.prim .pop 0, .push (.cplx Cplx.zero)])) ∧
      (nodes_expr Td [.prim .dup 0, .prim .sub 0]).anyComplex = false ∧
      pushRule false Cplx.zero = .push (.num (F.num 0)) ∧
      Node.push (Val.cplx Cplx.zero) ≠ pushRule false Cplx.zero := by
  refine ⟨?_, ?_, ?_, ?_⟩
  · norm_num [algebraic_inverse, nodes_expr, runSeq, runNode, primStep, popE, pushV,
      initEnv, exprX, exprOfTerm, exprSub, insertAdd, termCmp, baseCmp, powCmp,
      F.pcmp, qcmp, F.ieeeEq, F.isNan, F.add, F.sub, F.mul, F.neg, bcmp,
      Cplx.add, Cplx.neg, Cplx.zero, Cplx.one, Cplx.ieeeEq, Expr.is_complex,
      baseIsComplex, handledOf, resultOf, wrapSpan, spanOf, removeKey, spanCalc,
      pushRule, Cplx.intoReal, Ordering.then, Option.getD, Cplx.div, Cplx.absGtOne,
      F.div]
  · norm_num [nodes_expr, runSeq, runNode, primStep, popE, pushV,
      initEnv, exprX, exprOfTerm, exprSub, insertAdd, termCmp, baseCmp, powCmp,
      F.pcmp, qcmp, F.ieeeEq, F.isNan, F.add, F.sub, F.mul, F.neg, bcmp,
      Cplx.add, Cplx.neg, Cplx.zero, Cplx.one, Cplx.ieeeEq, Expr.is_complex,
      baseIsComplex, handledOf, resultOf, wrapSpan, spanOf]
  · norm_num [pushRule, Cplx.intoReal, Cplx.zero, F.ieeeEq, Option.getD]
  · simp [pushRule, Cplx.intoReal, Cplx.zero, F.ieeeEq]

/-- C4 (amended): every constant pushed by the IR emitted from
`algebraic_inverse` follows the push lowering rule (complex when
`any_complex`, else the real part with NaN fallback) in every branch of the
closed-form selection except the constant case `a = 0, b = 0`, which emits
`pop; push c` with `c` pushed directly as a complex value regardless of
`any_complex`. -/
theorem c4_push_rule (T : Tran) (n : Nat) (ns : List Node) (out : Node)
    (h : algebraic_inverse T n ns = some (.ok out)) :
    ∀ l, out = .run l → ∀ v ∈ pushVals l,
      (∃ k, Node.push v = pushRule (nodes_expr T ns).anyComplex k)
      ∨ ∃ sp c0, out = .run [.prim .pop sp, .push (.cplx c0)] := by
  intro l hl v hv
  simp only [algebraic_inverse] at h
  split at h
  · exact absurd h (by simp)
  · split at h
    · exact absurd h (by simp)
    · split at h
      · exact absurd h (by simp)
      · cases hsp : spanCalc n with
        | none => rw [hsp] at h; exact absurd h (by simp)
        | some sp =>
          rw [hsp] at h
          simp only [Option.map_some', Option.some.injEq, Except.ok.injEq] at h
          rw [hl] at h
          split at h
          · -- a = some a0: quadratic branches
            split at h
            · -- simple quadratic: two rule pushes
              injection h with hll
              subst hll
              cases hac : (nodes_expr T ns).anyComplex <;>
                · simp [pushVals, pushRule, hac] at hv
                  rcases hv with rfl | rfl
                  · exact Or.inl ⟨_, rfl⟩
                  · exact Or.inl ⟨_, rfl⟩
            · -- full quadratic: six rule pushes
              injection h with hll
              subst hll
              cases hac : (nodes_expr T ns).anyComplex <;>
                · simp [pushVals, pushRule, hac] at hv
                  rcases hv with rfl | rfl | rfl | rfl | rfl | rfl
                  all_goals exact Or.inl ⟨_, rfl⟩
          · -- a = none
            split at h
            · -- constant branch: the exempt shape
              exact Or.inr ⟨_, _, hl.trans h.symm⟩
            · split at h
              · -- c = 0 sub-branches
                split at h
                · -- identity: not a run node
                  exact absurd h (by simp)
                · split at h
                  · -- divide by b: one rule push
                    injection h with hll
                    subst hll
                    cases hac : (nodes_expr T ns).anyComplex <;>
                      · simp [pushVals, pushRule, hac] at hv
                        rcases hv with rfl
                        exact Or.inl ⟨_, rfl⟩
                  · -- multiply by 1/b: one rule push
                    injection h with hll
                    subst hll
                    cases hac : (nodes_expr T ns).anyComplex <;>
                      · simp [pushVals, pushRule, hac] at hv
                        rcases hv with rfl
                        exact Or.inl ⟨_, rfl⟩
              · -- general linear: two rule pushes
                injection h with hll
                subst hll
                cases hac : (nodes_expr T ns).anyComplex <;>
                  · simp [pushVals, pushRule, hac] at hv
                    rcases hv with rfl | rfl
                    · exact Or.inl ⟨_, rfl⟩
                    · exact Or.inl ⟨_, rfl⟩

/-- C4 witness: the amended theorem applied to the run of `y = -x + 3`,
whose inverse takes the general linear branch; its first push is the
rule-lowered real constant 3. -/
theorem c4_witness :
    (∃ k, Node.push (Val.num (F.num 3))
        = pushRule (nodes_expr Td [.prim .neg 0, .push (.num (F.num 3)), .prim .add 0]).anyComplex k)
      ∨ ∃ sp c0,
          Node.run [.push (.num (F.num 3)), .prim .sub 0,
            .push (.num (F.num (-1))), .prim .div 0]
          = .run [.prim .pop sp, .push (.cplx c0)] := by
  refine c4_push_rule Td 1 [.prim .neg 0, .push (.num (F.num 3)), .prim .add 0]
      (.run [.push (.num (F.num 3)), .prim .sub 0,
        .push (.num (F.num (-1))), .prim .div 0]) ?_ _ rfl (Val.num (F.num 3)) ?_
  · norm_num [algebraic_inverse, nodes_expr, runSeq, runNode, primStep, popE, pushV,
      initEnv, exprX, exprOfTerm, exprOfC, exprAdd, exprSub, exprNeg, insertAdd,
      termCmp, baseCmp, powCmp,
      F.pcmp, qcmp, F.ieeeEq, F.isNan, F.add, F.sub, F.mul, F.neg, bcmp,
      Cplx.add, Cplx.neg, Cplx.zero, Cplx.one, Cplx.ieeeEq, Expr.is_complex,
      baseIsComplex, handledOf, resultOf, wrapSpan, spanOf, removeKey, spanCalc,
      pushRule, Cplx.intoReal, Ordering.then, Option.getD, Cplx.div, Cplx.absGtOne,
      F.div]
  · simp [pushVals]

/-! ### C10 -/

/-- C10: the three entry points compute the sentinel span as
`spans.len() - 1` with unsigned arithmetic, so with zero spans no emission
can succeed: any run either fails with an `AlgebraError` beforehand or hits
the modelled underflow panic (`none`) instead of returning an error — as the
three concrete runs (which would otherwise succeed) show. -/
theorem c10_empty_spans :
    (∀ (T : Tran) (ns : List Node), isOkR (algebraic_inverse T 0 ns) = false)
    ∧ (∀ (T : Tran) (ns : List Node), isOkR (derivative T 0 ns) = false)
    ∧ (∀ (T : Tran) (ns : List Node), isOkR (integral T 0 ns) = false)
    ∧ algebraic_inverse Td 0 [.prim .dup 0, .prim .sub 0] = none
    ∧ derivative Td 0 [.prim .identity 0] = none
    ∧ integral Td 0 [.prim .identity 0] = none := by
  refine ⟨?_, ?_, ?_, ?_, ?_, ?_⟩
  · intro T ns
    simp only [algebraic_inverse]
    split
    · rfl
    · split
      · rfl
      · split
        · rfl
        · rfl
  · intro T ns
    simp only [derivative]
    split
    · rfl
    · split
      · rfl
      · rfl
  · intro T ns
    simp only [integral]
    split
    · rfl
    · split
      · rfl
      · rfl
  · rfl
  · norm_num [derivative, nodes_expr, runSeq, runNode, primStep, popE, pushV,
      initEnv, exprX, exprOfTerm, exprOfC, handledOf, resultOf, wrapSpan, spanOf,
      derivTransform, derivLoop, insertPut, Cplx.scale, Cplx.ieeeEq, Cplx.zero,
      Cplx.one, F.ieeeEq, F.mul, F.sub, expr_to_node, spanCalc, Expr.is_complex,
      baseIsComplex]
  · norm_num [integral, nodes_expr, runSeq, runNode, primStep, popE, pushV,
      initEnv, exprX, exprOfTerm, exprOfC, handledOf, resultOf, wrapSpan, spanOf,
      integTransform, integLoop, insertPut, Cplx.divF, Cplx.ieeeEq, Cplx.zero,
      Cplx.one, F.ieeeEq, F.div, F.add, expr_to_node, spanCalc, Expr.is_complex,
      baseIsComplex]

/-! ### C5 -/

/-- Popping `n` values one at a time from a sufficiently deep stack yields
the top `n` values in pop order and the remaining stack. -/
theorem popN_take_drop (n : Nat) (st : List Expr) (h : n ≤ st.length) :
    popN n st = some (st.take n, st.drop n) := by
  induction n generalizing st with
  | zero => simp [popN]
  | succ k ih =>
    cases st with
    | nil => simp at h
    | cons a rest =>
      simp only [List.length_cons, Nat.add_le_add_iff_right] at h
      simp [popN, ih rest h]

/-- C5 counterexample: with `f.sig.args = 1 < 2 = g.sig.args` on a stack of
depth two, the code pops only `f.sig.args = 1` value (not the claimed
`max = 2`) and runs `g` against the restored full stack, succeeding; had the
two values been popped and only the top `min = 1` been fed to `g`, the `Add`
inside `g` would have failed on an exhausted stack, as the second conjunct
shows. -/
theorem c5_counterexample :
    (nodes_expr Td [.push (.num (F.num 5)),
        .mod .fork [(.prim .pop 7, 1, 0), (.prim .add 7, 2, 1)] 9]).expr
      = .ok [((.X, F.num 0), Cplx.ofQ 5), ((.X, F.num 1), Cplx.ofQ 1)]
    ∧ (runNode Td (.prim .add 7)
        ⟨[exprOfC (Cplx.ofQ 5)], 0, false, []⟩).2 = some .TooManyVariables := by
  constructor
  · norm_num [nodes_expr, runSeq, runNode, primStep, popE, pushV, popN,
      initEnv, exprX, exprOfTerm, exprOfC, exprAdd, insertAdd, termCmp, baseCmp,
      powCmp, F.pcmp, qcmp, F.ieeeEq, F.isNan, F.add, F.sub, F.mul, F.neg, bcmp,
      Cplx.add, Cplx.neg, Cplx.zero, Cplx.one, Cplx.ofQ, Cplx.ieeeEq,
      Expr.is_complex, baseIsComplex, handledOf, resultOf, wrapSpan, spanOf,
      Ordering.then, Option.getD]
  · rfl

/-- C5 (amended): `Fork(f, g)` pops exactly `f.sig.args` values.  When
`f.sig.args > g.sig.args` it re-pushes the deepest `g.sig.args` of them
(deepest first) for `g`; otherwise it restores all of them, so `g` runs on
the full original stack.  In both cases it then re-pushes all popped values
in pop order (reversing their original order) and runs `f`.  Uniformly: `g`
sees `take f.args (drop (f.args - g.args)) ++ drop f.args` of the stack and
`f` sees the reversed popped values on top of `g`'s result. -/
theorem c5_fork (T : Tran) (fn gn : Node) (fa fo ga go sp : Nat) (env : Env)
    (h : fa ≤ env.stack.length) :
    runNode T (.mod .fork [(fn, fa, fo), (gn, ga, go)] sp) env =
      wrapSpan
        (match runNode T gn
            { env with
              stack := (env.stack.take fa).drop (fa - ga) ++ env.stack.drop fa,
              callStack := sp :: env.callStack } with
         | (env1, some e) => (env1, some e)
         | (env1, none) =>
           runNode T fn { env1 with stack := (env.stack.take fa).reverse ++ env1.stack }) := by
  rw [runNode]
  by_cases hfg : ga < fa
  · simp only [hfg, if_true, if_pos, popN_take_drop fa env.stack h]
  · simp only [hfg, if_false, if_neg, not_false_iff, popN_take_drop fa env.stack h,
      Nat.sub_eq_zero_of_le (Nat.le_of_not_lt hfg), List.drop_zero]

/-- C5 witness: the amended theorem applied to a concrete fork with
`f.sig.args = 1`, `g.sig.args = 2` on a stack of depth two. -/
theorem c5_witness :
    runNode Td (.mod .fork [(.prim .pop 7, 1, 0), (.prim .add 7, 2, 1)] 9)
        ⟨[exprOfC (Cplx.ofQ 5), exprX], 0, false, []⟩ =
      wrapSpan
        (match runNode Td (.prim .add 7)
            { stack := ([exprOfC (Cplx.ofQ 5), exprX].take 1).drop (1 - 2) ++
                [exprOfC (Cplx.ofQ 5), exprX].drop 1,
              handled := 0, anyComplex := false, callStack := [9] } with
         | (env1, some e) => (env1, some e)
         | (env1, none) =>
           runNode Td (.prim .pop 7)
             { env1 with stack := ([exprOfC (Cplx.ofQ 5), exprX].take 1).reverse ++ env1.stack }) :=
  c5_fork Td (.prim .pop 7) (.prim .add 7) 1 0 2 1 9
    ⟨[exprOfC (Cplx.ofQ 5), exprX], 0, false, []⟩ (by simp)

/-! ### C9 -/

/-- C9: applying `Sqrt` to the popped expression `a` pushes the transformed
expression and bumps the handled counter; with at most one term the powers
are halved and the coefficients replaced by their complex square roots,
otherwise the result is the single-term map `{(Expr(a))^0.5 -> 1}`. -/
theorem c9_sqrt (T : Tran) (env : Env) (a : Expr) (rest : List Expr) (sp : Nat)
    (h : env.stack = a :: rest) :
    runNode T (.prim .sqrt sp) env =
      ({ env with stack := sqrtE T a :: rest, handled := env.handled + 1 }, none)
    ∧ (a.length ≤ 1 →
        sqrtE T a = a.map fun q => ((q.1.1, q.1.2.mul (F.num (1/2))), T.csqrt q.2))
    ∧ (1 < a.length → sqrtE T a = [((.expr a, F.num (1/2)), Cplx.one)]) := by
  refine ⟨?_, fun hle => ?_, fun hgt => ?_⟩
  · simp [runNode, primStep, popE, pushV, wrapSpan, h]
  · simp [sqrtE, hle]
  · simp [sqrtE, exprOfTerm, Nat.not_le.mpr hgt]

/-- C9 witness: the theorem applied to a concrete stack whose top is the
two-term map `X + 1`, which gets wrapped as a nested base. -/
theorem c9_witness :
    runNode Td (.prim .sqrt 4)
        ⟨[[((.X, F.num 0), Cplx.one), ((.X, F.num 1), Cplx.one)], exprX], 2, false, [8]⟩ =
      ({ stack := sqrtE Td [((.X, F.num 0), Cplx.one), ((.X, F.num 1), Cplx.one)] :: [exprX],
          handled := 3, anyComplex := false, callStack := [8] }, none)
    ∧ sqrtE Td [((.X, F.num 0), Cplx.one), ((.X, F.num 1), Cplx.one)]
        = [((.expr [((.X, F.num 0), Cplx.one), ((.X, F.num 1), Cplx.one)], F.num (1/2)),
            Cplx.one)] := by
  have h := c9_sqrt Td
    ⟨[[((.X, F.num 0), Cplx.one), ((.X, F.num 1), Cplx.one)], exprX], 2, false, [8]⟩
    [((.X, F.num 0), Cplx.one), ((.X, F.num 1), Cplx.one)] [exprX] 4 rfl
  exact ⟨h.1, h.2.2 (by simp)⟩

/-! ### Order lemmas for the calculus transforms (C7, C8) -/

/-- On `X`-based terms, the term order is the power order. -/
theorem termCmp_XX (p q : F) : termCmp (.X, p) (.X, q) = powCmp p q := by
  simp [termCmp, baseCmp, Ordering.then]

/-- `qcmp` decides equality. -/
theorem qcmp_eq_iff (a b : ℚ) : qcmp a b = .eq ↔ a = b := by
  unfold qcmp
  split_ifs with h1 h2
  · simp only [reduceCtorEq, false_iff]
    exact ne_of_lt h1
  · simp [h2]
  · simp only [reduceCtorEq, false_iff]
    exact h2

/-- `qcmp` decides the strict order. -/
theorem qcmp_lt_iff (a b : ℚ) : qcmp a b = .lt ↔ a < b := by
  unfold qcmp
  split_ifs with h1 h2
  · simp [h1]
  · simp [h2, lt_irrefl]
  · simp only [reduceCtorEq, false_iff]
    exact h1
  -- the last two branches both fail the comparison

/-- `powCmp` decides equality of the modelled `f64` powers (two NaN powers
included, matching the NaN fallback of the source ordering). -/
theorem powCmp_eq_iff (p q : F) : powCmp p q = .eq ↔ p = q := by
  cases p with
  | nan =>
    cases q with
    | nan => simp [powCmp, F.pcmp, F.isNan, bcmp]
    | num b => simp [powCmp, F.pcmp, F.isNan, bcmp]
  | num a =>
    cases q with
    | nan => simp [powCmp, F.pcmp, F.isNan, bcmp]
    | num b => simp [powCmp, F.pcmp, qcmp_eq_iff]

/-- Shifting both powers down by one preserves the power order. -/
theorem powCmp_sub_one (p q : F) :
    powCmp (p.sub (F.num 1)) (q.sub (F.num 1)) = powCmp p q := by
  cases p with
  | nan => cases q <;> simp [powCmp, F.sub, F.pcmp, F.isNan, bcmp]
  | num a =>
    cases q with
    | nan => simp [powCmp, F.sub, F.pcmp, F.isNan, bcmp]
    | num b =>
      simp only [powCmp, F.sub, F.pcmp]
      unfold qcmp
      simp [sub_lt_sub_iff_right, sub_left_inj]

/-- Shifting both powers up by one preserves the power order. -/
theorem powCmp_add_one (p q : F) :
    powCmp (p.add (F.num 1)) (q.add (F.num 1)) = powCmp p q := by
  cases p with
  | nan => cases q <;> simp [powCmp, F.add, F.pcmp, F.isNan, bcmp]
  | num a =>
    cases q with
    | nan => simp [powCmp, F.add, F.pcmp, F.isNan, bcmp]
    | num b =>
      simp only [powCmp, F.add, F.pcmp]
      unfold qcmp
      simp [add_lt_add_iff_right, add_left_inj]

/-- Antisymmetry transfer for `powCmp`. -/
theorem powCmp_gt_of_lt (p q : F) (h : powCmp p q = .lt) : powCmp q p = .gt := by
  cases p with
  | nan =>
    cases q with
    | nan => simp [powCmp, F.pcmp, F.isNan, bcmp] at h
    | num b => simp [powCmp, F.pcmp, F.isNan, bcmp] at h
  | num a =>
    cases q with
    | nan => simp [powCmp, F.pcmp, F.isNan, bcmp]
    | num b =>
      simp only [powCmp, F.pcmp] at h ⊢
      rw [qcmp_lt_iff] at h
      unfold qcmp
      rw [if_neg (lt_asymm h), if_neg (ne_of_gt h)]

/-- Inserting a key strictly greater than every stored key appends. -/
theorem insertPut_append (e : Expr) (t : Term) (c : Cplx)
    (hall : ∀ p ∈ e, termCmp t p.1 = .gt) :
    insertPut e t c = e ++ [(t, c)] := by
  induction e with
  | nil => rfl
  | cons q rest ih =>
    obtain ⟨t1, c1⟩ := q
    have hq := hall (t1, c1) (List.mem_cons_self _ _)
    rw [insertPut, hq]
    rw [ih fun p hp => hall p (List.mem_cons_of_mem _ hp)]
    rfl

/-- A lookup misses when no stored key compares equal. -/
theorem lookupC_none (e : Expr) (t : Term)
    (h : ∀ p ∈ e, termCmp t p.1 ≠ .eq) :
    lookupC e t = none := by
  induction e with
  | nil => rfl
  | cons q rest ih =>
    obtain ⟨t1, c1⟩ := q
    have h1 := h (t1, c1) (List.mem_cons_self _ _)
    rw [lookupC]
    cases hc : termCmp t t1 with
    | eq => exact absurd hc h1
    | lt => exact ih fun p hp => h p (List.mem_cons_of_mem _ hp)
    | gt => exact ih fun p hp => h p (List.mem_cons_of_mem _ hp)

/-- A zero-coefficient test that passes pins the coefficient to zero. -/
theorem ieeeEq_zero (c : Cplx) (h : c.ieeeEq Cplx.zero = true) : c = Cplx.zero := by
  obtain ⟨re, im⟩ := c
  cases re with
  | nan => simp [Cplx.ieeeEq, F.ieeeEq, Cplx.zero] at h
  | num a =>
    cases im with
    | nan => simp [Cplx.ieeeEq, F.ieeeEq, Cplx.zero] at h
    | num b =>
      simp [Cplx.ieeeEq, F.ieeeEq, Cplx.zero] at h
      simp [Cplx.zero, h.1, h.2]

/-- A derivative run fails with `TooComplex` as soon as any term has a
nested base. -/
theorem derivLoop_toocomplex (l : List (Term × Cplx)) (acc : Expr)
    (hex : ∃ p ∈ l, p.1.1 ≠ .X) :
    derivLoop l acc = .error .TooComplex := by
  induction l generalizing acc with
  | nil => simp at hex
  | cons q rest ih =>
    obtain ⟨⟨b, pw⟩, c⟩ := q
    cases b with
    | X =>
      have hex2 : ∃ p ∈ rest, p.1.1 ≠ .X := by
        obtain ⟨p, hp, hne⟩ := hex
        rw [List.mem_cons] at hp
        rcases hp with rfl | hp
        · exact absurd rfl hne
        · exact ⟨p, hp, hne⟩
      rw [derivLoop]
      split
      · rfl
      · dsimp only
        split
        · exact ih acc hex2
        · exact ih _ hex2
    | expr sub => rw [derivLoop]

/-- The derivative loop, on a sorted all-`X` map whose shifted keys all lie
above the accumulator, appends the claimed per-term images. -/
theorem derivLoop_ok (l : List (Term × Cplx)) (acc : Expr)
    (hX : ∀ p ∈ l, p.1.1 = .X)
    (hsort : l.Pairwise fun p q => termCmp p.1 q.1 = .lt)
    (hacc : ∀ p ∈ l, ∀ q ∈ acc, termCmp ((.X : Base), p.1.2.sub (F.num 1)) q.1 = .gt) :
    derivLoop l acc = .ok (acc ++ l.filterMap dstep) := by
  induction l generalizing acc with
  | nil => simp [derivLoop]
  | cons q rest ih =>
    obtain ⟨⟨b, pw⟩, c⟩ := q
    have hb : b = .X := hX _ (List.mem_cons_self _ _)
    subst hb
    rw [List.pairwise_cons] at hsort
    have hXr : ∀ p ∈ rest, p.1.1 = .X := fun p hp => hX p (List.mem_cons_of_mem _ hp)
    rw [derivLoop]
    dsimp only
    by_cases hz : (c.scale pw).ieeeEq Cplx.zero = true
    · rw [if_pos hz]
      have hnone : dstep ((Base.X, pw), c) = none := by simp [dstep, hz]
      rw [List.filterMap_cons_none hnone]
      exact ih acc hXr hsort.2 fun p hp q hq => hacc p (List.mem_cons_of_mem _ hp) q hq
    · rw [if_neg hz]
      have hsome : dstep ((Base.X, pw), c)
          = some ((Base.X, pw.sub (F.num 1)), c.scale pw) := by simp [dstep, hz]
      rw [List.filterMap_cons_some hsome]
      rw [insertPut_append acc _ _ (hacc _ (List.mem_cons_self _ _))]
      rw [ih _ hXr hsort.2 ?_]
      · simp
      · intro p hp q hq
        rw [List.mem_append] at hq
        rcases hq with hq | hq
        · exact hacc p (List.mem_cons_of_mem _ hp) q hq
        · rw [List.mem_singleton] at hq
          subst hq
          obtain ⟨⟨pb, pp⟩, pc⟩ := p
          have hpb : pb = .X := hXr _ hp
          subst hpb
          have hlt := hsort.1 _ hp
          rw [termCmp_XX] at hlt
          dsimp only
          rw [termCmp_XX, powCmp_sub_one]
          exact powCmp_gt_of_lt _ _ hlt

/-- An integral run fails with `TooComplex` as soon as any term has a
nested base. -/
theorem integLoop_toocomplex (l : List (Term × Cplx)) (acc : Expr)
    (hex : ∃ p ∈ l, p.1.1 ≠ .X) :
    integLoop l acc = .error .TooComplex := by
  induction l generalizing acc with
  | nil => simp at hex
  | cons q rest ih =>
    obtain ⟨⟨b, pw⟩, c⟩ := q
    cases b with
    | X =>
      have hex2 : ∃ p ∈ rest, p.1.1 ≠ .X := by
        obtain ⟨p, hp, hne⟩ := hex
        rw [List.mem_cons] at hp
        rcases hp with rfl | hp
        · exact absurd rfl hne
        · exact ⟨p, hp, hne⟩
      rw [integLoop]
      split
      · rfl
      · exact ih _ hex2
    | expr sub => rw [integLoop]

/-- The integral loop, on a sorted all-`X` map whose shifted keys all lie
above the accumulator, appends the claimed per-term images. -/
theorem integLoop_ok (l : List (Term × Cplx)) (acc : Expr)
    (hX : ∀ p ∈ l, p.1.1 = .X)
    (hsort : l.Pairwise fun p q => termCmp p.1 q.1 = .lt)
    (hacc : ∀ p ∈ l, ∀ q ∈ acc, termCmp ((.X : Base), p.1.2.add (F.num 1)) q.1 = .gt) :
    integLoop l acc = .ok (acc ++ l.map istep) := by
  induction l generalizing acc with
  | nil => simp [integLoop]
  | cons q rest ih =>
    obtain ⟨⟨b, pw⟩, c⟩ := q
    have hb : b = .X := hX _ (List.mem_cons_self _ _)
    subst hb
    rw [List.pairwise_cons] at hsort
    have hXr : ∀ p ∈ rest, p.1.1 = .X := fun p hp => hX p (List.mem_cons_of_mem _ hp)
    rw [integLoop]
    dsimp only
    rw [insertPut_append acc _ _ (hacc _ (List.mem_cons_self _ _))]
    rw [ih _ hXr hsort.2 ?_]
    · simp [istep]
    · intro p hp q hq
      rw [List.mem_append] at hq
      rcases hq with hq | hq
      · exact hacc p (List.mem_cons_of_mem _ hp) q hq
      · rw [List.mem_singleton] at hq
        subst hq
        obtain ⟨⟨pb, pp⟩, pc⟩ := p
        have hpb : pb = .X := hXr _ hp
        subst hpb
        have hlt := hsort.1 _ hp
        rw [termCmp_XX] at hlt
        dsimp only
        rw [termCmp_XX, powCmp_add_one]
        exact powCmp_gt_of_lt _ _ hlt

/-! ### C7 -/

/-- C7: for a (sorted) analyzed map, the derivative transform maps each
`(X^p -> c)` to `(X^(p-1) -> c*p)`, drops entries whose new coefficient is
zero, and yields the constant `0` when nothing remains; any nested
`Base::Expr` base makes it fail with `TooComplex`. -/
theorem c7_derivative (e : Expr)
    (hs : e.Pairwise fun p q => termCmp p.1 q.1 = .lt) :
    ((∀ p ∈ e, p.1.1 = .X) →
      derivTransform e =
        .ok (if (e.filterMap dstep).isEmpty then exprOfC (Cplx.ofQ 0)
             else e.filterMap dstep))
    ∧ ((∃ p ∈ e, p.1.1 ≠ .X) → derivTransform e = .error .TooComplex) := by
  constructor
  · intro hX
    rw [derivTransform, derivLoop_ok e [] hX hs (by intro p hp q hq; simp at hq)]
    simp
  · intro hex
    rw [derivTransform, derivLoop_toocomplex e [] hex]

/-- C7 witness: the theorem applied to `3 + x^2`; the constant term is
dropped (its new coefficient is zero) and the quadratic term becomes `2x`. -/
theorem c7_witness :
    derivTransform [((.X, F.num 0), Cplx.ofQ 3), ((.X, F.num 2), Cplx.ofQ 1)]
      = .ok
          (if (([((.X, F.num 0), Cplx.ofQ 3), ((.X, F.num 2), Cplx.ofQ 1)] : Expr).filterMap
                dstep).isEmpty
           then exprOfC (Cplx.ofQ 0)
           else ([((.X, F.num 0), Cplx.ofQ 3), ((.X, F.num 2), Cplx.ofQ 1)] : Expr).filterMap
                dstep) := by
  refine (c7_derivative _ ?_).1 ?_
  · refine List.pairwise_cons.mpr ⟨?_, List.pairwise_cons.mpr ⟨?_, List.Pairwise.nil⟩⟩
    · intro p hp
      rw [List.mem_singleton] at hp
      subst hp
      rw [termCmp_XX]
      norm_num [powCmp, F.pcmp, qcmp]
    · intro p hp
      simp at hp
  · intro p hp
    rw [List.mem_cons, List.mem_cons] at hp
    rcases hp with rfl | rfl | h
    · rfl
    · rfl
    · simp at h

/-! ### C8 -/

/-- Coefficient extraction steps over a cons cell by key comparison. -/
theorem coeff_cons (t1 : Term) (c1 : Cplx) (rest : Expr) (t : Term) :
    coeff ((t1, c1) :: rest) t
      = (match termCmp t t1 with
         | .eq => c1
         | _ => coeff rest t) := by
  unfold coeff
  rw [lookupC]
  cases h : termCmp t t1 <;> simp [h]

/-- `filterMap` respects pointwise-equal functions on the list members. -/
theorem filterMap_congr_mem {α β : Type} (l : List α) (f g : α → Option β)
    (h : ∀ a ∈ l, f a = g a) : l.filterMap f = l.filterMap g := by
  induction l with
  | nil => rfl
  | cons a rest ih =>
    rw [List.filterMap_cons, List.filterMap_cons,
      h a (List.mem_cons_self _ _), ih fun a ha => h a (List.mem_cons_of_mem _ ha)]

/-- Pairwise relations transfer along a pointwise implication on members. -/
theorem pairwise_imp_mem {α : Type} {R S : α → α → Prop} :
    ∀ {l : List α}, (∀ a b, a ∈ l → b ∈ l → R a b → S a b) →
      l.Pairwise R → l.Pairwise S := by
  intro l
  induction l with
  | nil => intro _ _; exact List.Pairwise.nil
  | cons a rest ih =>
    intro h hp
    rw [List.pairwise_cons] at hp ⊢
    refine ⟨fun b hb => h a b (List.mem_cons_self _ _) (List.mem_cons_of_mem _ hb)
      (hp.1 b hb), ih ?_ hp.2⟩
    intro x y hx hy
    exact h x y (List.mem_cons_of_mem _ hx) (List.mem_cons_of_mem _ hy)

/-- Division then multiplication by the same nonzero real is the identity on
the modelled `f64`. -/
theorem div_mul_cancelF (x : F) (r : ℚ) (hr : r ≠ 0) :
    (x.div (F.num r)).mul (F.num r) = x := by
  cases x with
  | nan => simp [F.div, F.mul]
  | num a => simp [F.div, F.mul, hr, div_mul_cancel₀ a hr]

/-- Componentwise cancellation for the complex scalar. -/
theorem divF_scale_cancel (c : Cplx) (r : ℚ) (hr : r ≠ 0) :
    (c.divF (F.num r)).scale (F.num r) = c := by
  obtain ⟨re, im⟩ := c
  simp [Cplx.divF, Cplx.scale, div_mul_cancelF _ _ hr]

/-- On an `X`-based term with natural power, the derivative step undoes the
integral step exactly, leaving only the zero-coefficient filter. -/
theorem dstep_istep (b : Base) (pw : F) (c : Cplx) (k : ℕ)
    (hb : b = .X) (hpw : pw = F.num k) :
    dstep (istep ((b, pw), c)) = keepNz ((b, pw), c) := by
  subst hb
  subst hpw
  have hk : ((k : ℚ) + 1) ≠ 0 := by positivity
  simp only [istep, dstep, keepNz, F.add]
  rw [divF_scale_cancel c _ hk]
  simp [F.sub]

/-- An empty zero-filtered map means every stored coefficient is zero. -/
theorem keepNz_nil (e : Expr) (h : e.filterMap keepNz = []) :
    ∀ p ∈ e, p.2 = Cplx.zero := by
  induction e with
  | nil => intro p hp; simp at hp
  | cons q rest ih =>
    intro p hp
    rw [List.filterMap_cons] at h
    cases hq : keepNz q with
    | some x => rw [hq] at h; simp at h
    | none =>
      rw [hq] at h
      rw [List.mem_cons] at hp
      rcases hp with rfl | hp
      · unfold keepNz at hq
        by_cases hz : p.2.ieeeEq Cplx.zero = true
        · exact ieeeEq_zero _ hz
        · rw [if_neg hz] at hq; simp at hq
      · exact ih h p hp

/-- Every coefficient of an all-zero map reads as zero. -/
theorem coeff_all_zero (e : Expr) (t : Term) (h : ∀ p ∈ e, p.2 = Cplx.zero) :
    coeff e t = Cplx.zero := by
  induction e with
  | nil => rfl
  | cons q rest ih =>
    obtain ⟨t1, c1⟩ := q
    rw [coeff_cons]
    have h1 : c1 = Cplx.zero := h (t1, c1) (List.mem_cons_self _ _)
    cases hc : termCmp t t1 with
    | eq => exact h1
    | lt => exact ih fun p hp => h p (List.mem_cons_of_mem _ hp)
    | gt => exact ih fun p hp => h p (List.mem_cons_of_mem _ hp)

/-- Dropping zero-coefficient entries from a sorted all-`X` numeric map does
not change any read coefficient. -/
theorem coeff_keepNz (e : Expr) (r : ℚ)
    (hX : ∀ p ∈ e, p.1.1 = .X)
    (hnum : ∀ p ∈ e, ∃ k : ℚ, p.1.2 = F.num k)
    (hs : e.Pairwise fun p q => termCmp p.1 q.1 = .lt) :
    coeff (e.filterMap keepNz) (.X, F.num r) = coeff e (.X, F.num r) := by
  induction e with
  | nil => rfl
  | cons q rest ih =>
    obtain ⟨⟨b, pw⟩, c⟩ := q
    have hb : b = .X := hX _ (List.mem_cons_self _ _)
    subst hb
    obtain ⟨k, hk⟩ := hnum _ (List.mem_cons_self _ _)
    dsimp at hk
    subst hk
    rw [List.pairwise_cons] at hs
    have hXr : ∀ p ∈ rest, p.1.1 = .X := fun p hp => hX p (List.mem_cons_of_mem _ hp)
    have hnr : ∀ p ∈ rest, ∃ k : ℚ, p.1.2 = F.num k :=
      fun p hp => hnum p (List.mem_cons_of_mem _ hp)
    by_cases hz : c.ieeeEq Cplx.zero = true
    · have hnone : keepNz ((Base.X, F.num k), c) = none := by simp [keepNz, hz]
      rw [List.filterMap_cons_none hnone, ih hXr hnr hs.2, coeff_cons]
      cases hc : termCmp ((Base.X : Base), F.num r) ((Base.X : Base), F.num k) with
      | lt => rfl
      | gt => rfl
      | eq =>
        have hrk : r = k := by
          rw [termCmp_XX, powCmp_eq_iff] at hc
          exact F.num.inj hc
        subst hrk
        have hmiss : lookupC rest ((Base.X : Base), F.num r) = none := by
          refine lookupC_none rest _ ?_
          intro p hp
          have hlt := hs.1 p hp
          rw [hlt]
          simp
        unfold coeff
        rw [hmiss]
        simp [Option.getD, ieeeEq_zero c hz]
    · have hsome : keepNz ((Base.X, F.num k), c) = some ((Base.X, F.num k), c) := by
        simp [keepNz, hz]
      rw [List.filterMap_cons_some hsome, coeff_cons, coeff_cons]
      cases hc : termCmp ((Base.X : Base), F.num r) ((Base.X : Base), F.num k) with
      | eq => rfl
      | lt => exact ih hXr hnr hs.2
      | gt => exact ih hXr hnr hs.2

/-- C8: integrating and then differentiating a polynomial over `X` with
nonnegative integer powers recovers the original map coefficientwise, the
division and multiplication by `p+1` cancelling exactly. -/
theorem c8_integ_deriv (e : Expr)
    (hs : e.Pairwise fun p q => termCmp p.1 q.1 = .lt)
    (hX : ∀ p ∈ e, p.1.1 = .X)
    (hp : ∀ p ∈ e, ∃ k : ℕ, p.1.2 = F.num k) :
    ∃ e1 e2, integTransform e = .ok e1 ∧ derivTransform e1 = .ok e2 ∧
      ∀ r : ℚ, coeff e2 (.X, F.num r) = coeff e (.X, F.num r) := by
  have h1 : integTransform e = .ok (e.map istep) := by
    rw [integTransform, integLoop_ok e [] hX hs (by intro p hp q hq; simp at hq)]
    simp
  have hX1 : ∀ p ∈ e.map istep, p.1.1 = .X := by
    intro p hp
    rw [List.mem_map] at hp
    obtain ⟨q, _, rfl⟩ := hp
    rfl
  have hs1 : (e.map istep).Pairwise fun p q => termCmp p.1 q.1 = .lt := by
    rw [List.pairwise_map]
    refine pairwise_imp_mem ?_ hs
    intro a b ha hb hab
    obtain ⟨⟨ab1, ap⟩, ac⟩ := a
    obtain ⟨⟨bb1, bp⟩, bc⟩ := b
    have ha1 : ab1 = .X := hX _ ha
    have hb1 : bb1 = .X := hX _ hb
    subst ha1
    subst hb1
    dsimp [istep]
    rw [termCmp_XX, powCmp_add_one]
    rw [termCmp_XX] at hab
    exact hab
  have h3 : (e.map istep).filterMap dstep = e.filterMap keepNz := by
    rw [List.filterMap_map]
    refine filterMap_congr_mem e _ _ ?_
    intro a ha
    obtain ⟨⟨ab1, ap⟩, ac⟩ := a
    obtain ⟨k, hk⟩ := hp _ ha
    dsimp at hk
    exact dstep_istep ab1 ap ac k (hX _ ha) hk
  have h2 : derivTransform (e.map istep)
      = .ok (if (e.filterMap keepNz).isEmpty then exprOfC (Cplx.ofQ 0)
             else e.filterMap keepNz) := by
    rw [derivTransform, derivLoop_ok _ [] hX1 hs1 (by intro p hp q hq; simp at hq)]
    dsimp only
    rw [List.nil_append, h3]
  refine ⟨e.map istep, _, h1, h2, ?_⟩
  intro r
  by_cases hE : (e.filterMap keepNz).isEmpty = true
  · rw [if_pos hE]
    have hz : ∀ p ∈ e, p.2 = Cplx.zero :=
      keepNz_nil e (by rwa [List.isEmpty_iff] at hE)
    rw [coeff_all_zero e _ hz]
    unfold coeff lookupC exprOfC
    cases hc : termCmp ((Base.X : Base), F.num r) ((Base.X : Base), F.num 0) <;>
      simp [hc, Cplx.ofQ, Cplx.zero, lookupC]
  · rw [if_neg hE]
    exact coeff_keepNz e r hX
      (fun p hpm => (hp p hpm).elim fun k hk => ⟨(k : ℚ), hk⟩) hs

/-- C8 witness: the theorem applied to the polynomial `2 + 3x`. -/
theorem c8_witness :
    ∃ e1 e2,
      integTransform [((.X, F.num 0), Cplx.ofQ 2), ((.X, F.num 1), Cplx.ofQ 3)]
          = .ok e1 ∧
        derivTransform e1 = .ok e2 ∧
        coeff e2 (.X, F.num 1)
          = coeff [((.X, F.num 0), Cplx.ofQ 2), ((.X, F.num 1), Cplx.ofQ 3)]
              (.X, F.num 1) := by
  obtain ⟨e1, e2, h1, h2, h3⟩ :=
    c8_integ_deriv [((.X, F.num 0), Cplx.ofQ 2), ((.X, F.num 1), Cplx.ofQ 3)]
      (by
        refine List.pairwise_cons.mpr ⟨?_, List.pairwise_cons.mpr ⟨?_, List.Pairwise.nil⟩⟩
        · intro p hp
          rw [List.mem_singleton] at hp
          subst hp
          rw [termCmp_XX]
          norm_num [powCmp, F.pcmp, qcmp]
        · intro p hp
          simp at hp)
      (by
        intro p hp
        rw [List.mem_cons, List.mem_cons] at hp
        rcases hp with rfl | rfl | h
        · rfl
        · rfl
        · simp at h)
      (by
        intro p hp
        rw [List.mem_cons, List.mem_cons] at hp
        rcases hp with rfl | rfl | h
        · exact ⟨0, by norm_num⟩
        · exact ⟨1, by norm_num⟩
        · simp at h)
  exact ⟨e1, e2, h1, h2, h3 1⟩

end Algebra
